import Mathlib

/-!
# Verification of the parameter-model pipeline of `refresh_modules.py`

This file gives a shallow embedding, in Lean 4, of the core of the
code generator in `src/refresh_modules.py`: the resource namer
(`path_to_name`), the schema reference resolver (`Definitions.get`),
the parameter flattener (`_flatten_parameter` / `_property_to_parameter`),
the cross-operation parameter merge (`AnsibleModuleBase.parameters`) and
the operation index (`SwaggerFile.init_resources`), together with
theorems settling the specification claims about them.

Modelling conventions:
* Python dicts holding parameter descriptors and schema bodies are
  modelled by records with `Option` fields (`none` = key absent).  The
  field vocabulary is the closed set of keys the program reads or
  writes (`name`, `type`, `description`, `required`, `enum`, `schema`,
  `$ref`, `properties`, `subkeys`, `operationIds`, `default`, `in`).
* Python mutation is modelled functionally.  The source mutates
  descriptor dicts in place and can, through list aliasing, also extend
  enum lists stored in the shared definitions table; every claim below
  only observes the merged output whose enums are collapsed to sorted
  duplicate-free sets, on which the functional model and the mutating
  code agree.
* Exceptions (`KeyError` on an unresolved `$ref`, a missing `subkeys`
  key, the generic duplicate-operation `Exception`) are modelled with
  `Option`/`Except`: a crash is `none`/`.error`.
* Unbounded recursion through the definitions table
  (`_property_to_parameter` calling itself on a resolved `$ref`) is
  modelled with an explicit fuel argument; fuel exhaustion is `none`,
  mirroring non-termination of the source on cyclic documents.
* Python string primitives (`split`, `replace`, `lower`, `join`,
  comparison) are re-implemented over character lists so that all
  definitions evaluate inside the kernel; `lower` handles ASCII as in
  the inputs this generator consumes.
-/

/-! ## Python-style string primitives -/

/-- Code-point lexicographic strict comparison of character lists,
the order Python uses to compare `str` values. -/
def charListLt : List Char → List Char → Bool
  | [], [] => false
  | [], _ :: _ => true
  | _ :: _, [] => false
  | a :: as, b :: bs =>
    if a < b then true
    else if b < a then false
    else charListLt as bs

/-- Python's `<` on strings. -/
def strLt (a b : String) : Bool := charListLt a.data b.data

/-- Fuel-indexed worker for `pyReplace`; structural recursion on the
fuel lets the kernel evaluate it.  Each step consumes at least one
input character, so fuel equal to the input length never runs out. -/
def replaceCharsF (pat repl : List Char) : Nat → List Char → List Char
  | 0, l => l
  | _ + 1, [] => []
  | fuel + 1, c :: rest =>
    if pat.isPrefixOf (c :: rest) ∧ pat ≠ [] then
      repl ++ replaceCharsF pat repl fuel (rest.drop (pat.length - 1))
    else
      c :: replaceCharsF pat repl fuel rest

/-- Replace every non-overlapping occurrence of `pat` (non-empty) by
`repl`, scanning left to right: Python's `str.replace`.  An empty
pattern leaves the list unchanged (the source only ever replaces
non-empty literals). -/
def replaceChars (pat repl l : List Char) : List Char :=
  replaceCharsF pat repl l.length l

/-- Python's `str.replace` on strings. -/
def pyReplace (s pat repl : String) : String :=
  ⟨replaceChars pat.data repl.data s.data⟩

/-- Fuel-indexed worker for `pySplit`; the accumulator holds the
current chunk reversed.  Fuel equal to the input length never runs
out. -/
def splitCharsF (sep : List Char) : Nat → List Char → List Char → List (List Char)
  | 0, _, acc => [acc.reverse]
  | _ + 1, [], acc => [acc.reverse]
  | fuel + 1, c :: rest, acc =>
    if sep.isPrefixOf (c :: rest) ∧ sep ≠ [] then
      acc.reverse :: splitCharsF sep fuel (rest.drop (sep.length - 1)) []
    else
      splitCharsF sep fuel rest (c :: acc)

/-- Python's `str.split` with a non-empty separator: every occurrence
of the separator ends a chunk, and empty chunks are kept. -/
def pySplit (s sep : String) : List String :=
  (splitCharsF sep.data s.data.length s.data []).map String.mk

/-- ASCII lowercasing of one character (Python's `str.lower` on the
ASCII inputs this generator consumes). -/
def charLower (c : Char) : Char :=
  if 65 ≤ c.toNat ∧ c.toNat ≤ 90 then Char.ofNat (c.toNat + 32) else c

/-- Python's `str.lower`. -/
def pyLower (s : String) : String := ⟨s.data.map charLower⟩

/-- Python's `sep.join(l)`. -/
def pyJoin (sep : String) : List String → String
  | [] => ""
  | [x] => x
  | x :: xs => x ++ sep ++ pyJoin sep xs

/-- Python's single-character `c in s` membership test. -/
def pyContainsChar (s : String) (c : Char) : Bool := s.data.contains c

/-! ## Comparator lemmas -/

/-- `charListLt` is asymmetric. -/
theorem charListLt_asymm : ∀ {a b : List Char},
    charListLt a b = true → charListLt b a = false
  | [], [], h => by simp [charListLt] at h
  | [], _ :: _, _ => by simp [charListLt]
  | _ :: _, [], h => by simp [charListLt] at h
  | x :: xs, y :: ys, h => by
    simp only [charListLt] at h ⊢
    rcases lt_trichotomy x y with hxy | hxy | hxy
    · rw [if_neg (asymm hxy), if_pos hxy]
    · subst hxy
      rw [if_neg (lt_irrefl x)] at h ⊢
      rw [if_neg (lt_irrefl x)] at h ⊢
      exact charListLt_asymm h
    · rw [if_neg (asymm hxy), if_pos hxy] at h
      exact absurd h (by simp)

/-- `charListLt` is transitive. -/
theorem charListLt_trans : ∀ {a b c : List Char},
    charListLt a b = true → charListLt b c = true → charListLt a c = true
  | [], [], _, hab, _ => by simp [charListLt] at hab
  | [], _ :: _, [], _, hbc => by simp [charListLt] at hbc
  | [], _ :: _, _ :: _, _, _ => by simp [charListLt]
  | _ :: _, [], _, hab, _ => by simp [charListLt] at hab
  | _ :: _, _ :: _, [], _, hbc => by simp [charListLt] at hbc
  | x :: xs, y :: ys, z :: zs, hab, hbc => by
    simp only [charListLt] at hab hbc ⊢
    rcases lt_trichotomy x y with hxy | hxy | hxy
    · rcases lt_trichotomy y z with hyz | hyz | hyz
      · rw [if_pos (lt_trans hxy hyz)]
      · subst hyz; rw [if_pos hxy]
      · rw [if_neg (asymm hyz), if_pos hyz] at hbc
        exact absurd hbc (by simp)
    · subst hxy
      rcases lt_trichotomy x z with hxz | hxz | hxz
      · rw [if_pos hxz]
      · subst hxz
        rw [if_neg (lt_irrefl x)] at hab hbc ⊢
        rw [if_neg (lt_irrefl x)] at hab hbc ⊢
        exact charListLt_trans hab hbc
      · rw [if_neg (asymm hxz), if_pos hxz] at hbc
        exact absurd hbc (by simp)
    · rw [if_neg (asymm hxy), if_pos hxy] at hab
      exact absurd hab (by simp)

/-- Two character lists neither of which is below the other are equal. -/
theorem charListLt_conn : ∀ {a b : List Char},
    charListLt a b = false → charListLt b a = false → a = b
  | [], [], _, _ => rfl
  | [], _ :: _, hab, _ => by simp [charListLt] at hab
  | _ :: _, [], _, hba => by simp [charListLt] at hba
  | x :: xs, y :: ys, hab, hba => by
    simp only [charListLt] at hab hba
    rcases lt_trichotomy x y with hxy | hxy | hxy
    · rw [if_pos hxy] at hab; exact absurd hab (by simp)
    · subst hxy
      rw [if_neg (lt_irrefl x)] at hab hba
      rw [if_neg (lt_irrefl x)] at hab hba
      rw [charListLt_conn hab hba]
    · rw [if_pos hxy] at hba; exact absurd hba (by simp)

/-- `strLt` is asymmetric. -/
theorem strLt_asymm {a b : String} (h : strLt a b = true) : strLt b a = false :=
  charListLt_asymm h

/-- `strLt` is transitive. -/
theorem strLt_trans {a b c : String} (hab : strLt a b = true)
    (hbc : strLt b c = true) : strLt a c = true :=
  charListLt_trans hab hbc

/-- Strings neither of which is below the other are equal. -/
theorem strLt_conn {a b : String} (hab : strLt a b = false)
    (hba : strLt b a = false) : a = b := by
  cases a with
  | mk d1 =>
    cases b with
    | mk d2 => exact congrArg String.mk (charListLt_conn hab hba)

/-! ## `pySort`: Python's stable sort -/

/-- Insert `x` into `l`, placing it before the first element strictly
greater than it; inserting every element of a list this way, left to
right, reproduces the result (including stability) of Python's
`sorted`. -/
def insertAfterEq (lt : α → α → Bool) (x : α) : List α → List α
  | [] => [x]
  | y :: ys => if lt x y then x :: y :: ys else y :: insertAfterEq lt x ys

/-- Stable sort modelling Python's `sorted` / `list.sort`. -/
def pySort (lt : α → α → Bool) (l : List α) : List α :=
  l.foldl (fun acc x => insertAfterEq lt x acc) []

theorem insertAfterEq_perm (lt : α → α → Bool) (x : α) (l : List α) :
    List.Perm (insertAfterEq lt x l) (x :: l) := by
  induction l with
  | nil => simp [insertAfterEq]
  | cons y ys ih =>
    simp only [insertAfterEq]
    by_cases h : lt x y
    · simp [h]
    · rw [if_neg h]
      exact (ih.cons y).trans (List.Perm.swap x y ys)

theorem pySort_perm_aux (lt : α → α → Bool) : ∀ (l acc : List α),
    List.Perm (List.foldl (fun acc x => insertAfterEq lt x acc) acc l) (acc ++ l)
  | [], acc => by simp
  | x :: xs, acc => by
    simp only [List.foldl_cons]
    refine (pySort_perm_aux lt xs (insertAfterEq lt x acc)).trans ?_
    refine (List.Perm.append_right xs (insertAfterEq_perm lt x acc)).trans ?_
    exact (@List.perm_middle _ x acc xs).symm

/-- `pySort` permutes its input. -/
theorem pySort_perm (lt : α → α → Bool) (l : List α) :
    List.Perm (pySort lt l) l := by
  simpa using pySort_perm_aux lt l []

/-- Sortedness with respect to a boolean strict comparator: no later
element is strictly below an earlier one. -/
def SortedB (lt : α → α → Bool) (l : List α) : Prop :=
  l.Pairwise (fun a b => lt b a = false)

theorem sortedB_insertAfterEq (lt : α → α → Bool)
    (htr : ∀ a b c, lt a b = true → lt b c = true → lt a c = true)
    (has : ∀ a b, lt a b = true → lt b a = false) (x : α) :
    ∀ l : List α, SortedB lt l → SortedB lt (insertAfterEq lt x l)
  | [], _ => by simp [insertAfterEq, SortedB]
  | y :: ys, h => by
    rcases List.pairwise_cons.mp h with ⟨hy, hys⟩
    by_cases hxy : lt x y = true
    · rw [insertAfterEq, if_pos hxy]
      refine List.pairwise_cons.mpr ⟨?_, h⟩
      intro z hz
      rcases List.mem_cons.mp hz with rfl | hz'
      · exact has x z hxy
      · cases hzx : lt z x with
        | false => rfl
        | true =>
          have h1 : lt z y = true := htr z x y hzx hxy
          rw [hy z hz'] at h1
          exact absurd h1 (by simp)
    · rw [insertAfterEq, if_neg hxy]
      refine List.pairwise_cons.mpr
        ⟨?_, sortedB_insertAfterEq lt htr has x ys hys⟩
      intro z hz
      rcases List.mem_cons.mp ((insertAfterEq_perm lt x ys).mem_iff.mp hz) with
        rfl | hz'
      · cases h2 : lt z y with
        | false => rfl
        | true => exact absurd h2 hxy
      · exact hy z hz'

theorem pySort_sortedB_aux (lt : α → α → Bool)
    (htr : ∀ a b c, lt a b = true → lt b c = true → lt a c = true)
    (has : ∀ a b, lt a b = true → lt b a = false) :
    ∀ (l acc : List α), SortedB lt acc →
      SortedB lt (List.foldl (fun acc x => insertAfterEq lt x acc) acc l)
  | [], _, hacc => hacc
  | x :: xs, acc, hacc => by
    simp only [List.foldl_cons]
    exact pySort_sortedB_aux lt htr has xs _
      (sortedB_insertAfterEq lt htr has x acc hacc)

/-- `pySort` sorts, given a transitive asymmetric comparator. -/
theorem pySort_sortedB (lt : α → α → Bool)
    (htr : ∀ a b c, lt a b = true → lt b c = true → lt a c = true)
    (has : ∀ a b, lt a b = true → lt b a = false)
    (l : List α) : SortedB lt (pySort lt l) :=
  pySort_sortedB_aux lt htr has l [] (by simp [SortedB])

/-- Sorted permutations are equal when the comparator is connected:
two sorted lists of the same multiset agree. -/
theorem eq_of_perm_of_sortedB (lt : α → α → Bool)
    (hconn : ∀ a b, lt a b = false → lt b a = false → a = b)
    {l₁ l₂ : List α} (hp : List.Perm l₁ l₂)
    (h₁ : SortedB lt l₁) (h₂ : SortedB lt l₂) : l₁ = l₂ := by
  induction l₁ generalizing l₂ with
  | nil => exact hp.nil_eq
  | cons a as ih =>
    cases l₂ with
    | nil => exact absurd hp (by simp)
    | cons b bs =>
      rcases List.pairwise_cons.mp h₁ with ⟨ha, has'⟩
      rcases List.pairwise_cons.mp h₂ with ⟨hb, hbs'⟩
      have hab : a = b := by
        have hma : a ∈ b :: bs := hp.mem_iff.mp (by simp)
        have hmb : b ∈ a :: as := hp.symm.mem_iff.mp (by simp)
        rcases List.mem_cons.mp hma with h | h
        · exact h
        · rcases List.mem_cons.mp hmb with h' | h'
          · exact h'.symm
          · exact hconn a b (hb a h) (ha b h')
      subst hab
      exact congrArg (a :: ·) (ih hp.cons_inv has' hbs')

/-! ## The resource namer: `path_to_name` -/

/-- Left brace character, written via its code point. -/
def lbrace : Char := Char.ofNat 123

/-- The placeholder rewriting applied by `path_to_name` to a path
segment containing a `\x7b...\x7d` placeholder: prefix `by_`, strip the
braces, replace `=` by `_eq_` and `:` by `_`, lowercase. -/
def rewriteSegment (e : String) : String :=
  pyLower (pyReplace (pyReplace (pyReplace (pyReplace ("by_" ++ e)
    "\x7b" "") "\x7d" "") "=" "_eq_") ":" "_")

/-- Shallow embedding of `path_to_name` (src/refresh_modules.py:122).
Everything from the first `?` on is discarded, the remainder is split
into non-empty `/`-separated segments, placeholder segments are
canonicalized, a leading literal `data` segment is dropped, and the
segments are joined with `_` with `-` and `:` replaced by `_`,
lowercased. -/
def path_to_name (path : String) : String :=
  let upath := (pySplit path "?").headD ""
  let elements := (pySplit upath "/").filter (· ≠ "")
  let elements := elements.map fun e =>
    if pyContainsChar e lbrace then rewriteSegment e else e
  let elements := if elements.take 1 = ["data"] then elements.drop 1 else elements
  pyLower (pyReplace (pyReplace (pyJoin "_" elements) "-" "_") ":" "_")

/-- The algorithm exactly as the claim words it (a rendering of the
claim text, used to compare against the source): split the path into
non-empty segments, canonicalize placeholder segments, drop a leading
`data` segment, join with `_`, replace `-` with `_`, lowercase.  The
claim mentions neither the discarded `?` query suffix nor the
replacement of `:` by `_` in the final join. -/
def path_to_name_claimed (path : String) : String :=
  let elements := (pySplit path "/").filter (· ≠ "")
  let elements := elements.map fun e =>
    if pyContainsChar e lbrace then rewriteSegment e else e
  let elements := if elements.take 1 = ["data"] then elements.drop 1 else elements
  pyLower (pyReplace (pyJoin "_" elements) "-" "_")

/-- The claim's algorithm amended with the two omitted steps: the input
is first truncated at the first `?`, and the final join also replaces
`:` with `_`. -/
def path_to_name_amended (path : String) : String :=
  let withoutQuery := (pySplit path "?").headD ""
  let elements := (pySplit withoutQuery "/").filter (· ≠ "")
  let elements := elements.map fun e =>
    if pyContainsChar e lbrace then rewriteSegment e else e
  let elements := if elements.take 1 = ["data"] then elements.drop 1 else elements
  pyLower (pyReplace (pyReplace (pyJoin "_" elements) "-" "_") ":" "_")

/-- C7 counterexample: the algorithm described by the claim disagrees
with the source on `"/a:b"` — the source also replaces `:` with `_` in
the final join (and truncates at `?`), which the claim omits, so
`path_to_name` does not implement the claim's algorithm as stated. -/
theorem c7_path_to_name_counterexample :
    path_to_name "/a:b" = "a_b" ∧ path_to_name_claimed "/a:b" = "a:b" ∧
      path_to_name "/a:b" ≠ path_to_name_claimed "/a:b" :=
  ⟨by decide, by decide, by decide⟩

/-- C7 (amended): `path_to_name` implements the claim's algorithm
amended with the query-string truncation and the final `:`→`_`
replacement; the two concrete cases of the claim hold, and the function
is a pure function of its input (it is a Lean `def`). -/
theorem c7_path_to_name_amended :
    (∀ path : String, path_to_name path = path_to_name_amended path) ∧
      path_to_name "/vcenter/vm" = "vcenter_vm" ∧
      path_to_name "/data/vcenter/vm" = "vcenter_vm" :=
  ⟨fun _ => rfl, by decide, by decide⟩

/-! ## Data model: parameter descriptors, schemas, definitions

Python dicts are modelled by records with `Option` fields over the
closed key vocabulary the program uses.  `RVal` models the two shapes
the `required` key takes: a boolean on a parameter descriptor, a list
of property names on a schema body. -/

/-- Value of a `required` key: boolean (descriptor) or list of
property names (schema body). -/
inductive RVal where
  | rb : Bool → RVal
  | rl : List String → RVal
deriving DecidableEq

/-- The `schema` sub-dict of a raw parameter entry: the program only
reads its `$ref` and `type` keys. -/
structure SchemaVal where
  ref : Option String := none
  type : Option String := none
deriving DecidableEq

/-- The fields of a parameter-descriptor dict; `α` ties the recursive
knot for `subkeys`.  `inLoc` models the `in` key (`"path"`/`"query"`),
which is not a legal Lean field name. -/
structure ParamF (α : Type) where
  name : String := ""
  type : Option String := none
  description : Option String := none
  required : Option RVal := none
  enum : Option (List String) := none
  subkeys : Option (List α) := none
  operationIds : Option (List String) := none
  default : Option String := none
  inLoc : Option String := none
  schema : Option SchemaVal := none

/-- A parameter descriptor (a Python dict in the source).  Enum values
are modelled as strings; the merge's final `str(item)` conversion is
then the identity. -/
inductive Param where
  | mk : ParamF Param → Param

/-- The field record of a descriptor. -/
def Param.fields : Param → ParamF Param
  | .mk f => f

def Param.name (p : Param) : String := p.fields.name
def Param.type (p : Param) : Option String := p.fields.type
def Param.description (p : Param) : Option String := p.fields.description
def Param.required (p : Param) : Option RVal := p.fields.required
def Param.enum (p : Param) : Option (List String) := p.fields.enum
def Param.subkeys (p : Param) : Option (List Param) := p.fields.subkeys
def Param.operationIds (p : Param) : Option (List String) := p.fields.operationIds
def Param.default (p : Param) : Option String := p.fields.default
def Param.inLoc (p : Param) : Option String := p.fields.inLoc
def Param.schema (p : Param) : Option SchemaVal := p.fields.schema

/-- A property value inside a schema's `properties` table: the program
reads its `type`, `description`, `$ref` keys (and, through field
copying, its `enum`). -/
structure PropVal where
  type : Option String := none
  description : Option String := none
  ref : Option String := none
  enum : Option (List String) := none
deriving DecidableEq

/-- A schema/definition body. -/
structure Defn where
  properties : Option (List (String × PropVal)) := none
  required : Option RVal := none
  type : Option String := none
  description : Option String := none
  enum : Option (List String) := none
deriving DecidableEq

/-- The definitions table (`class Definitions` in the source). -/
structure Definitions where
  definitions : List (String × Defn)

/-- `Definitions.get`: `_ref_to_dotted` takes component 2 of the
`$ref` string split on `/` (`#/definitions/Name` → `Name`), then the
table is indexed; a missing component or name is a `KeyError`, i.e.
`none`. -/
def Definitions.get (d : Definitions) (refStr : String) : Option Defn :=
  match (pySplit refStr "/").get? 2 with
  | none => none
  | some dotted => (d.definitions.find? (·.1 == dotted)).map (·.2)

/-! ## The schema flattener -/

/-- `optMap f l` sequences `f` over `l`, failing if any element fails:
the shape of a Python generator that can raise. -/
def optMap (f : α → Option β) : List α → Option (List β)
  | [] => some []
  | a :: as =>
    match f a with
    | none => none
    | some b =>
      match optMap f as with
      | none => none
      | some bs => some (b :: bs)

/-- Python raises `TypeError` when `required` is a boolean and a
property name is tested for membership in it; this happens as soon as
the (non-empty) properties table is iterated. -/
def requiredCrash (r : Option RVal) (props : List (String × PropVal)) : Bool :=
  match r, props with
  | some (.rb _), _ :: _ => true
  | _, _ => false

/-- `prop_struct.get("required", [])` as a list of property names. -/
def requiredList : Option RVal → List String
  | some (.rl l) => l
  | _ => []

/-- Comparator for `sorted(..., key=lambda item: item["name"])`. -/
def paramNameLt (p q : Param) : Bool := strLt p.name q.name

/-- The `for k, v in ref.items(): parameter[k] = v` loop of
`_property_to_parameter`: copy every present field of the resolved
(propertyless) definition body onto the descriptor. -/
def copyFields (p : ParamF Param) (d : Defn) : ParamF Param :=
  let p := match d.type with | some t => { p with type := some t } | none => p
  let p := match d.description with
    | some s => { p with description := some s }
    | none => p
  let p := match d.enum with | some e => { p with enum := some e } | none => p
  match d.required with | some r => { p with required := some r } | none => p

/-- Embedding of `AnsibleModuleBase._property_to_parameter`
(src/refresh_modules.py:284).  The source is a Python generator;
`return prop_struct` inside a generator yields nothing, so a schema
without a `properties` table produces the empty sequence (`some []`).
`none` models a crash (unresolved `$ref`, boolean `required` iterated)
or fuel exhaustion on reference cycles. -/
def property_to_parameter : Nat → Defn → Definitions → Option (List Param)
  | 0, _, _ => none
  | fuel + 1, d, defs =>
    match d.properties with
    | none => some []
    | some props =>
      if requiredCrash d.required props then none
      else
        optMap (fun nv =>
          let base : ParamF Param := {
            name := nv.1
            type := some (nv.2.type.getD "str")
            description := some (nv.2.description.getD "")
            required := some (.rb ((requiredList d.required).contains nv.1)) }
          match nv.2.ref with
          | none => some (Param.mk base)
          | some refStr =>
            match defs.get refStr with
            | none => none
            | some refd =>
              match refd.properties with
              | some _ =>
                match property_to_parameter fuel refd defs with
                | none => none
                | some sub => some (Param.mk { base with
                    type := some "dict"
                    subkeys := some (pySort paramNameLt sub) })
              | none => some (Param.mk (copyFields base refd))) props

/-- `i["type"] = i["schema"]["type"]` before yielding `i`. -/
def Param.setType (p : Param) (t : String) : Param :=
  Param.mk { p.fields with type := some t }

/-- Embedding of `AnsibleModuleBase._flatten_parameter`
(src/refresh_modules.py:316): an entry whose `schema` holds a `$ref`
is replaced by the expansion of the resolved definition; an entry
whose `schema` holds a `type` is yielded with that type pulled up; an
entry whose `schema` holds neither is silently skipped; an entry
without `schema` is yielded unchanged. -/
def flatten_parameter (fuel : Nat) (defs : Definitions) :
    List Param → Option (List Param)
  | [] => some []
  | i :: rest =>
    match i.schema with
    | some sch =>
      match sch.ref with
      | some refStr =>
        match defs.get refStr with
        | none => none
        | some schema =>
          match property_to_parameter fuel schema defs with
          | none => none
          | some js =>
            match flatten_parameter fuel defs rest with
            | none => none
            | some ys => some (js ++ ys)
      | none =>
        match sch.type with
        | some t =>
          match flatten_parameter fuel defs rest with
          | none => none
          | some ys => some (i.setType t :: ys)
        | none => flatten_parameter fuel defs rest
    | none =>
      match flatten_parameter fuel defs rest with
      | none => none
      | some ys => some (i :: ys)

/-- The `spec` convention of `itera` (src/refresh_modules.py:204): a
flattened descriptor literally named `spec` is replaced by its
`subkeys`; a `spec` descriptor without a `subkeys` key is a `KeyError`
(`none`). -/
def iteraSpec : List Param → Option (List Param)
  | [] => some []
  | p :: rest =>
    match iteraSpec rest with
    | none => none
    | some ys =>
      if p.name == "spec" then
        match p.subkeys with
        | some sk => some (sk ++ ys)
        | none => none
      else
        some (p :: ys)

/-- `itera(operationId)`: flatten one operation's raw parameter list,
then apply the `spec` convention. -/
def itera (fuel : Nat) (defs : Definitions) (rawParams : List Param) :
    Option (List Param) :=
  match flatten_parameter fuel defs rawParams with
  | none => none
  | some flat => iteraSpec flat

/-! ## Inversion of `optMap` -/

theorem optMap_some {f : α → Option β} : ∀ {xs : List α} {l : List β},
    optMap f xs = some l →
      l.length = xs.length ∧
        ∀ i (h1 : i < xs.length) (h2 : i < l.length),
          f (xs.get ⟨i, h1⟩) = some (l.get ⟨i, h2⟩)
  | [], l, h => by
    simp only [optMap, Option.some.injEq] at h
    subst h
    exact ⟨rfl, fun i h1 => absurd h1 (by simp)⟩
  | a :: as, l, h => by
    rw [optMap] at h
    cases hfa : f a with
    | none => rw [hfa] at h; exact absurd h (by simp)
    | some b =>
      rw [hfa] at h
      cases hrest : optMap f as with
      | none => rw [hrest] at h; exact absurd h (by simp)
      | some bs =>
        rw [hrest] at h
        simp only [Option.some.injEq] at h
        subst h
        obtain ⟨hlen, hget⟩ := optMap_some hrest
        refine ⟨by simp [hlen], ?_⟩
        intro i h1 h2
        cases i with
        | zero => simpa using hfa
        | succ j =>
          simpa using hget j (by simpa using h1) (by simpa using h2)

/-- `copyFields` never touches the descriptor's name. -/
theorem copyFields_name (p : ParamF Param) (d : Defn) :
    (copyFields p d).name = p.name := by
  unfold copyFields
  cases d.type <;> cases d.description <;> cases d.enum <;> cases d.required <;> rfl

/-! ## Claim C4: property expansion -/

/-- Schema with a single property `a` that declares no type. -/
def c4Defn : Defn := { properties := some [("a", {})] }

/-- An empty definitions table. -/
def noDefs : Definitions := ⟨[]⟩

/-- C4 counterexample: expanding a property with no declared type
produces a descriptor of type `"str"`, not `"string"` as the claim
states (the source reads `v.get("type", "str")`). -/
theorem c4_property_expansion_counterexample :
    (property_to_parameter 1 c4Defn noDefs).map (fun l => l.map Param.type) =
      some [some "str"] ∧ (some "str" : Option String) ≠ some "string" :=
  ⟨rfl, by decide⟩

/-- C4 (amended): for every resolved object schema with a properties
table, property expansion yields exactly one descriptor per top-level
property, in table order, bearing the property's name; a property
without a `$ref` gets exactly `type` = declared type defaulting to
`"str"`, `description` = declared description defaulting to `""`, and
`required` = whether the property's name is listed in the schema's
`required` list (descriptors of `$ref` properties are additionally
rewritten by reference expansion). -/
theorem c4_property_expansion_amended :
    ∀ (fuel : Nat) (d : Defn) (defs : Definitions)
      (props : List (String × PropVal)) (l : List Param),
      d.properties = some props →
      property_to_parameter (fuel + 1) d defs = some l →
      l.length = props.length ∧
        ∀ i (h1 : i < props.length) (h2 : i < l.length),
          (l.get ⟨i, h2⟩).name = (props.get ⟨i, h1⟩).1 ∧
          ((props.get ⟨i, h1⟩).2.ref = none →
            l.get ⟨i, h2⟩ = Param.mk {
              name := (props.get ⟨i, h1⟩).1
              type := some ((props.get ⟨i, h1⟩).2.type.getD "str")
              description := some ((props.get ⟨i, h1⟩).2.description.getD "")
              required := some (.rb
                ((requiredList d.required).contains (props.get ⟨i, h1⟩).1)) }) := by
  intro fuel d defs props l hprops hrun
  simp only [property_to_parameter, hprops] at hrun
  by_cases hcr : requiredCrash d.required props = true
  · rw [if_pos hcr] at hrun; exact absurd hrun (by simp)
  · rw [if_neg hcr] at hrun
    obtain ⟨hlen, hget⟩ := optMap_some hrun
    refine ⟨hlen, ?_⟩
    intro i h1 h2
    have hfi := hget i h1 h2
    cases hr : (props.get ⟨i, h1⟩).2.ref with
    | none =>
      simp only [hr, Option.some.injEq] at hfi
      exact ⟨by rw [← hfi]; rfl, fun _ => hfi.symm⟩
    | some refStr =>
      simp only [hr] at hfi
      refine ⟨?_, fun hcontra => absurd hcontra (by simp)⟩
      cases hdg : defs.get refStr with
      | none =>
        simp only [hdg] at hfi
        exact absurd hfi (by simp)
      | some refd =>
        simp only [hdg] at hfi
        cases hrp : refd.properties with
        | none =>
          simp only [hrp, Option.some.injEq] at hfi
          rw [← hfi]
          exact copyFields_name _ _
        | some rprops =>
          simp only [hrp] at hfi
          cases hsub : property_to_parameter fuel refd defs with
          | none =>
            simp only [hsub] at hfi
            exact absurd hfi (by simp)
          | some sub =>
            simp only [hsub, Option.some.injEq] at hfi
            rw [← hfi]; rfl

/-- The single descriptor produced by expanding `c4Defn`. -/
def c4Expected : Param := Param.mk {
  name := "a", type := some "str", description := some "",
  required := some (.rb false) }

/-- Witness instantiating the amended C4 theorem on `c4Defn`. -/
theorem c4_property_expansion_amended_witness :
    c4Expected.name = "a" ∧ ([c4Expected] : List Param).length = 1 := by
  have h := c4_property_expansion_amended 0 c4Defn noDefs [("a", {})]
    [c4Expected] rfl rfl
  exact ⟨(h.2 0 (by decide) (by decide)).1, h.1⟩

/-! ## Claim C5: the `spec` flattening example -/

/-- The referenced body type of the C5 example. -/
def c5Defn : Defn := {
  properties := some [("name", { type := some "string" }),
                      ("tags", { type := some "array" })]
  required := some (.rl ["name"]) }

def c5Defs : Definitions := ⟨[("MyBody", c5Defn)]⟩

/-- The raw parameter named `spec` whose schema is a reference. -/
def c5SpecParam : Param :=
  Param.mk { name := "spec", schema := some { ref := some "#/definitions/MyBody" } }

def c5ExpectedName : Param := Param.mk {
  name := "name", type := some "string", description := some "",
  required := some (.rb true) }

def c5ExpectedTags : Param := Param.mk {
  name := "tags", type := some "array", description := some "",
  required := some (.rb false) }

/-- C5: flattening the raw parameter list `[spec ↦ $ref MyBody]`
yields exactly the two descriptors `name` (required) and `tags` (not
required), no descriptor named `spec` is ever yielded, and the `spec`
convention of `itera` leaves this result unchanged. -/
theorem c5_flatten_spec_reference :
    flatten_parameter 1 c5Defs [c5SpecParam] =
        some [c5ExpectedName, c5ExpectedTags] ∧
      itera 1 c5Defs [c5SpecParam] = some [c5ExpectedName, c5ExpectedTags] ∧
      (flatten_parameter 1 c5Defs [c5SpecParam]).map
          (fun l => l.all (fun p => p.name != "spec")) = some true ∧
      (itera 1 c5Defs [c5SpecParam]).map
          (fun l => l.all (fun p => p.name != "spec")) = some true :=
  ⟨rfl, rfl, rfl, rfl⟩

/-! ## Claim C10: references without a properties table -/

/-- C10: if a raw parameter's schema is a reference to a definition
without a `properties` table, the expansion is the empty sequence
(`some []`, not an error) and flattening the list with that parameter
equals flattening the list without it: the parameter is silently
dropped. -/
theorem c10_ref_without_properties_dropped :
    ∀ (fuel : Nat) (defs : Definitions) (p : Param) (sch : SchemaVal)
      (refStr : String) (d : Defn) (rest : List Param),
      p.schema = some sch → sch.ref = some refStr →
      defs.get refStr = some d → d.properties = none →
      property_to_parameter (fuel + 1) d defs = some [] ∧
        flatten_parameter (fuel + 1) defs (p :: rest) =
          flatten_parameter (fuel + 1) defs rest := by
  intro fuel defs p sch refStr d rest hsch href hget hprops
  have hpp : property_to_parameter (fuel + 1) d defs = some [] := by
    simp only [property_to_parameter, hprops]
  refine ⟨hpp, ?_⟩
  rw [flatten_parameter]
  simp only [hsch, href, hget, hpp]
  cases flatten_parameter (fuel + 1) defs rest <;> simp

def c10Defn : Defn := { type := some "string" }

def c10Defs : Definitions := ⟨[("E", c10Defn)]⟩

def c10Param : Param :=
  Param.mk { name := "x", schema := some { ref := some "#/definitions/E" } }

/-- Witness instantiating C10 on a concrete propertyless definition. -/
theorem c10_ref_without_properties_dropped_witness :
    property_to_parameter 1 c10Defn c10Defs = some [] ∧
      flatten_parameter 1 c10Defs [c10Param] = flatten_parameter 1 c10Defs [] :=
  c10_ref_without_properties_dropped 0 c10Defs c10Param
    { ref := some "#/definitions/E" } "#/definitions/E" c10Defn [] rfl rfl rfl rfl

/-! ## The cross-operation parameter merge: `parameters()`

`Resource.operations` models the Python dict operation-id → operation
tuple `(verb, path, parameters, basePath)`.  The iteration order of
`self.default_operationIds` — a Python `set`, whose iteration order is
not specified — is passed explicitly as the `order` argument. -/

/-- One operation tuple `(verb, path, parameters, basePath)`. -/
structure Operation where
  verb : String
  path : String
  parameters : List Param
  basePath : String

/-- A `Resource`: derived name plus the operation dict. -/
structure Resource where
  name : String
  operations : List (String × Operation)

/-- Python dict membership (`name in results`). -/
def dMem (d : List (String × Param)) (k : String) : Bool := d.any (·.1 == k)

/-- Python dict lookup. -/
def dGet? (d : List (String × Param)) (k : String) : Option Param :=
  (d.find? (·.1 == k)).map (·.2)

/-- Python dict assignment: update in place when the key exists
(keeping its position), append otherwise. -/
def dSet (d : List (String × Param)) (k : String) (v : Param) :
    List (String × Param) :=
  if dMem d k then d.map (fun kv => if kv.1 == k then (k, v) else kv)
  else d ++ [(k, v)]

/-- `results.values()`. -/
def dValues (d : List (String × Param)) : List Param := d.map (·.2)

/-- `results.keys()`. -/
def dKeys (d : List (String × Param)) : List String := d.map (·.1)

/-- Python `len` of a string: its number of characters. -/
def pyLen (s : String) : Nat := s.data.length

/-- The description-merging rules of the loop body: a new descriptor
without a description leaves the stored one unchanged; a first
description is stored; differing descriptions keep the strictly longer
one (ties keep the stored one). -/
def descMerge (stored incoming : Option String) : Option String :=
  match incoming with
  | none => stored
  | some d =>
    match stored with
    | none => some d
    | some s => if s ≠ d ∧ pyLen d > pyLen s then some d else some s

/-- The enum-merging rule: a new enum is concatenated onto the stored
one (created if absent); deduplication only happens in the final
collapse. -/
def enumMerge (stored incoming : Option (List String)) : Option (List String) :=
  match incoming with
  | none => stored
  | some e =>
    match stored with
    | none => some e
    | some s => some (s ++ e)

/-- One `for parameter in sorted(...)` loop iteration, acting on the
stored entry for `parameter["name"]` (if any).  On first sight the
source stores the incoming dict itself and resets its `operationIds`
to `[]`; the description/enum merging then reads that same dict, so a
first-sighted enum is concatenated with itself (the `results[name]`
and `parameter` dicts are aliases). -/
def mergeStep (stored : Option Param) (operationId : String) (p : Param) :
    Param :=
  let r := match stored with
    | none => Param.mk { p.fields with operationIds := some [] }
    | some r => r
  Param.mk { r.fields with
    description := descMerge r.description p.description
    enum := enumMerge r.enum p.enum
    operationIds := some (pySort strLt ((r.operationIds.getD []) ++ [operationId])) }

/-- Merge one flattened descriptor into the accumulated dict. -/
def mergeOne (acc : List (String × Param)) (operationId : String) (p : Param) :
    List (String × Param) :=
  dSet acc p.name (mergeStep (dGet? acc p.name) operationId p)

/-- The sort key `(item["name"], item.get("description"))`.  Python
raises `TypeError` when comparing `None` with a string (only possible
when one operation has two same-named parameters exactly one of which
has a description); the model totalizes that corner with
`None`-first. -/
def optDescLt : Option String → Option String → Bool
  | none, none => false
  | none, some _ => true
  | some _, none => false
  | some a, some b => strLt a b

def byNameDesc (p q : Param) : Bool :=
  strLt p.name q.name || (p.name == q.name && optDescLt p.description q.description)

/-- Process one operation: its flattened view, sorted by
`(name, description)`, is folded into the accumulated dict. -/
def processOp (acc : List (String × Param)) (operationId : String)
    (view : List Param) : List (String × Param) :=
  (pySort byNameDesc view).foldl (fun acc p => mergeOne acc operationId p) acc

/-- The whole merge loop over the per-operation views. -/
def mergeViews (views : List (String × List Param)) : List (String × Param) :=
  views.foldl (fun acc ov => processOp acc ov.1 ov.2) []

/-- Truthiness of a stored `required` value. -/
def reqTruthy : Option RVal → Bool
  | some (.rb b) => b
  | some (.rl l) => !l.isEmpty
  | none => false

/-- Python `repr` of a plain string (no embedded quotes), as produced
by `"{}".format(sorted(set(...)))`. -/
def pyQuote (s : String) : String := "\x27" ++ s ++ "\x27"

/-- Python `str` of a list of plain strings. -/
def pyStrListRepr (l : List String) : String :=
  "[" ++ pyJoin ", " (l.map pyQuote) ++ "]"

/-- The distinct elements of `l`, keeping first occurrences: the
contents of Python's `set(l)` (always sorted right after, so the
internal order is irrelevant). -/
def pyDedup : List String → List String
  | [] => []
  | x :: xs => x :: (pyDedup xs).filter (fun y => y != x)

/-- `sorted(set(l))` for strings. -/
def sortedSet (l : List String) : List String := pySort strLt (pyDedup l)

/-- The sentence appended to required descriptors,
`"Required with I(state={})".format(sorted(set(operationIds)))`. -/
def reqSentence (opIds : List String) : String :=
  "Required with I(state=" ++ pyStrListRepr (sortedSet opIds) ++ ")"

/-- The enum collapse of the post-loop rewriting: a non-empty enum is
replaced by the sorted set of its values. -/
def collapseEnum (p : Param) : Param :=
  if (p.enum.getD []).isEmpty then p
  else Param.mk { p.fields with enum := some (sortedSet (p.enum.getD [])) }

/-- The required-to-description rewriting of the post-loop step: for a
truthily-required entry, append (or create) the description sentence
naming the sorted set of the entry's `operationIds` and delete the
`required` key.  (Entries built by the merge always carry
`operationIds`; the `getD []` default is unreachable there.) -/
def applyRequired (p : Param) : Param :=
  if reqTruthy p.required then
    match p.description with
    | some d => Param.mk { p.fields with
        description := some (d ++ "\n" ++ reqSentence (p.operationIds.getD []))
        required := none }
    | none => Param.mk { p.fields with
        description := some (reqSentence (p.operationIds.getD []))
        required := none }
  else p

/-- The post-loop rewriting of one merged entry: first the enum
collapse, then the required rewriting. -/
def postprocessParam (p : Param) : Param := applyRequired (collapseEnum p)

/-- The synthetic `state` descriptor:
`{"name": "state", "default": "present", "type": "str",
"enum": sorted(list(self.default_operationIds))}`. -/
def stateParam (order : List String) : Param := Param.mk {
  name := "state"
  default := some "present"
  type := some "str"
  enum := some (pySort strLt (pyDedup order)) }

/-- The post-loop part of `parameters()`: postprocess every merged
entry, assign the synthetic `state` entry, and return the values
sorted by name. -/
def finalizeParams (merged : List (String × Param)) (order : List String) :
    List Param :=
  let post := merged.map fun kv => (kv.1, postprocessParam kv.2)
  let withState := dSet post "state" (stateParam order)
  pySort paramNameLt (dValues withState)

/-- The flattened view of one operation id: `some none` when the id is
not one of the resource's operations (the loop's `continue`), `none`
when flattening crashes. -/
def viewOf (fuel : Nat) (defs : Definitions) (res : Resource) (op : String) :
    Option (Option (String × List Param)) :=
  match (res.operations.find? (·.1 == op)).map (·.2) with
  | none => some none
  | some oper =>
    match itera fuel defs oper.parameters with
    | none => none
    | some view => some (some (op, view))

/-- All per-operation views in iteration order; `none` as soon as any
included operation's flattening crashes (output-equivalent to the
source's interleaving of flattening and merging). -/
def opViews (fuel : Nat) (defs : Definitions) (res : Resource)
    (order : List String) : Option (List (String × List Param)) :=
  match optMap (viewOf fuel defs res) order with
  | none => none
  | some l => some (l.filterMap id)

/-- Embedding of `AnsibleModuleBase.parameters`
(src/refresh_modules.py:203): `order` is the iteration order of the
`default_operationIds` set. -/
def parameters (fuel : Nat) (defs : Definitions) (res : Resource)
    (order : List String) : Option (List Param) :=
  match opViews fuel defs res order with
  | none => none
  | some views => some (finalizeParams (mergeViews views) order)

/-! ## Dictionary lemmas -/

/-- A `false` boolean is not `true`. -/
theorem boolNotTrue {b : Bool} (h : b = false) : ¬(b = true) := by
  rw [h]
  exact Bool.false_ne_true

theorem dGet?_cons_pos {kv : String × Param} {rest : List (String × Param)}
    {k : String} (h : (kv.1 == k) = true) :
    dGet? (kv :: rest) k = some kv.2 := by
  unfold dGet?
  rw [List.find?_cons_of_pos (p := fun x : String × Param => x.1 == k) _ h]
  rfl

theorem dGet?_cons_neg {kv : String × Param} {rest : List (String × Param)}
    {k : String} (h : (kv.1 == k) = false) :
    dGet? (kv :: rest) k = dGet? rest k := by
  unfold dGet?
  rw [List.find?_cons_of_neg _ (by simp [h])]

theorem dMem_cons (kv : String × Param) (rest : List (String × Param))
    (k : String) : dMem (kv :: rest) k = ((kv.1 == k) || dMem rest k) := rfl

theorem dGet?_isSome_eq_dMem (d : List (String × Param)) (k : String) :
    (dGet? d k).isSome = dMem d k := by
  induction d with
  | nil => rfl
  | cons kv rest ih =>
    cases hk : kv.1 == k with
    | true => rw [dGet?_cons_pos hk, dMem_cons, hk]; rfl
    | false => rw [dGet?_cons_neg hk, dMem_cons, hk, Bool.false_or]; exact ih

theorem dMem_false_dGet? {d : List (String × Param)} {k : String}
    (h : dMem d k = false) : dGet? d k = none := by
  cases ho : dGet? d k with
  | none => rfl
  | some v =>
    have h2 := dGet?_isSome_eq_dMem d k
    rw [ho, h] at h2
    exact absurd h2 (by simp)

/-- The in-place-update function of `dSet`. -/
def setFn (k : String) (v : Param) (kv : String × Param) : String × Param :=
  if kv.1 == k then (k, v) else kv

theorem dSet_eq (d : List (String × Param)) (k : String) (v : Param) :
    dSet d k v = if dMem d k then d.map (setFn k v) else d ++ [(k, v)] := by
  unfold dSet setFn
  rfl

theorem dGet?_map_set (d : List (String × Param)) (k : String) (v : Param) :
    dGet? (d.map (setFn k v)) k = if dMem d k then some v else dGet? d k := by
  induction d with
  | nil => rfl
  | cons kv rest ih =>
    rw [List.map_cons, dMem_cons]
    cases hk : kv.1 == k with
    | true =>
      rw [setFn, if_pos hk, dGet?_cons_pos (by simp), Bool.true_or, if_pos rfl]
    | false =>
      rw [setFn, if_neg (by simp [hk]), dGet?_cons_neg hk, Bool.false_or,
        dGet?_cons_neg hk]
      exact ih

theorem dGet?_map_set_ne (d : List (String × Param)) (k k2 : String) (v : Param)
    (h : k2 ≠ k) : dGet? (d.map (setFn k v)) k2 = dGet? d k2 := by
  induction d with
  | nil => rfl
  | cons kv rest ih =>
    rw [List.map_cons]
    cases hk : kv.1 == k with
    | true =>
      have hkv : kv.1 = k := by simpa using hk
      rw [setFn, if_pos hk, dGet?_cons_neg (by simp [Ne.symm h]),
        dGet?_cons_neg (by simp [hkv, Ne.symm h])]
      exact ih
    | false =>
      rw [setFn, if_neg (by simp [hk])]
      cases hk2 : kv.1 == k2 with
      | true => rw [dGet?_cons_pos hk2, dGet?_cons_pos hk2]
      | false =>
        rw [dGet?_cons_neg hk2, dGet?_cons_neg hk2]
        exact ih

theorem dGet?_append (d e : List (String × Param)) (k : String) :
    dGet? (d ++ e) k =
      match dGet? d k with
      | some v => some v
      | none => dGet? e k := by
  unfold dGet?
  rw [List.find?_append]
  cases hf : d.find? (fun x => x.1 == k) with
  | none => rfl
  | some kv => rfl

theorem dGet?_dSet_self (d : List (String × Param)) (k : String) (v : Param) :
    dGet? (dSet d k v) k = some v := by
  rw [dSet_eq]
  cases h : dMem d k with
  | true => rw [if_pos rfl, dGet?_map_set, h, if_pos rfl]
  | false =>
    rw [if_neg (by simp), dGet?_append, dMem_false_dGet? h]
    exact dGet?_cons_pos (by simp)

theorem dGet?_dSet_ne (d : List (String × Param)) (k k2 : String) (v : Param)
    (h : k2 ≠ k) : dGet? (dSet d k v) k2 = dGet? d k2 := by
  rw [dSet_eq]
  cases hm : dMem d k with
  | true =>
    rw [if_pos rfl]
    exact dGet?_map_set_ne d k k2 v h
  | false =>
    rw [if_neg (by simp), dGet?_append]
    cases hd : dGet? d k2 with
    | some v2 => rfl
    | none => exact dGet?_cons_neg (by simp [Ne.symm h])

theorem dKeys_dSet (d : List (String × Param)) (k : String) (v : Param) :
    dKeys (dSet d k v) = if dMem d k then dKeys d else dKeys d ++ [k] := by
  rw [dSet_eq]
  cases hm : dMem d k with
  | true =>
    rw [if_pos rfl, if_pos rfl]
    unfold dKeys
    rw [List.map_map]
    apply List.map_congr_left
    intro kv _
    cases hk : kv.1 == k with
    | true =>
      have hkv : kv.1 = k := by simpa using hk
      simp only [Function.comp_apply, setFn, if_pos hk]
      exact hkv.symm
    | false =>
      simp only [Function.comp_apply, setFn]
      rw [if_neg (boolNotTrue hk)]
  | false =>
    rw [if_neg (by simp), if_neg (by simp)]
    simp [dKeys]

theorem dMem_iff_mem_dKeys (d : List (String × Param)) (k : String) :
    dMem d k = true ↔ k ∈ dKeys d := by
  simp only [dMem, dKeys, List.any_eq_true, List.mem_map]
  constructor
  · rintro ⟨kv, hkv, he⟩
    exact ⟨kv, hkv, beq_iff_eq.mp he⟩
  · rintro ⟨kv, hkv, he⟩
    exact ⟨kv, hkv, by simp [he]⟩

theorem dKeys_nodup_dSet (d : List (String × Param)) (k : String) (v : Param)
    (h : (dKeys d).Nodup) : (dKeys (dSet d k v)).Nodup := by
  rw [dKeys_dSet]
  cases hm : dMem d k with
  | true => rw [if_pos rfl]; exact h
  | false =>
    rw [if_neg (by simp)]
    have hk : k ∉ dKeys d := fun hc => by
      rw [(dMem_iff_mem_dKeys d k).mpr hc] at hm
      cases hm
    simpa [List.nodup_append] using ⟨h, hk⟩

/-- Values of entries keep `name = key` under `dSet` of a matching
pair. -/
theorem dSet_name_key (d : List (String × Param)) (k : String) (v : Param)
    (hd : ∀ kv ∈ d, Param.name kv.2 = kv.1) (hv : v.name = k) :
    ∀ kv ∈ dSet d k v, Param.name kv.2 = kv.1 := by
  intro kv hkv
  rw [dSet_eq] at hkv
  cases hm : dMem d k with
  | true =>
    rw [hm, if_pos rfl] at hkv
    rcases List.mem_map.mp hkv with ⟨kv0, hkv0, he⟩
    rw [setFn] at he
    by_cases hk : (kv0.1 == k) = true
    · rw [if_pos hk] at he
      rw [← he]
      exact hv
    · rw [if_neg hk] at he
      rw [← he]
      exact hd kv0 hkv0
  | false =>
    rw [hm, if_neg (by simp)] at hkv
    rcases List.mem_append.mp hkv with h | h
    · exact hd kv h
    · rw [List.mem_singleton.mp h]
      exact hv

theorem dGet?_name (d : List (String × Param)) (k : String) (r : Param)
    (hd : ∀ kv ∈ d, Param.name kv.2 = kv.1) (h : dGet? d k = some r) :
    r.name = k := by
  unfold dGet? at h
  cases hf : d.find? (fun x => x.1 == k) with
  | none => rw [hf] at h; cases h
  | some kv =>
    rw [hf] at h
    have hmem := List.mem_of_find?_eq_some hf
    have hp := List.find?_some (p := fun x : String × Param => x.1 == k) hf
    have hk : kv.1 = k := by simpa using hp
    cases h
    rw [hd kv hmem, hk]

/-! ## Claim C1: order-dependence of the merge -/

/-- The raw parameter `a` as declared by operation `get` of the C1
resource. -/
def c1ParamGet : Param :=
  Param.mk { name := "a", type := some "string", description := some "xx" }

/-- The same parameter as declared by `update`: equal-length different
description. -/
def c1ParamUpdate : Param :=
  Param.mk { name := "a", type := some "string", description := some "yy" }

def c1OpGet : Operation :=
  { verb := "get", path := "/vcenter/vm", basePath := "", parameters := [c1ParamGet] }

def c1OpUpdate : Operation :=
  { verb := "update", path := "/vcenter/vm", basePath := "", parameters := [c1ParamUpdate] }

def c1Res : Resource := {
  name := "vcenter_vm",
  operations := [("get", c1OpGet), ("update", c1OpUpdate)] }

/-- C1 counterexample: on a resource whose two operations give the
same parameter equal-length but different descriptions, the output of
`parameters()` depends on the iteration order of the
operation-identifier set — the two orders are permutations of one
another yet the merged descriptions differ (`results[name]` keeps the
first-seen description when lengths tie). -/
theorem c1_determinism_counterexample :
    (parameters 1 noDefs c1Res ["get", "update"]).map
        (fun l => l.map Param.description) = some [some "xx", none] ∧
      (parameters 1 noDefs c1Res ["update", "get"]).map
        (fun l => l.map Param.description) = some [some "yy", none] ∧
      List.Perm ["get", "update"] ["update", "get"] ∧
      parameters 1 noDefs c1Res ["get", "update"] ≠
        parameters 1 noDefs c1Res ["update", "get"] := by
  refine ⟨rfl, rfl, List.Perm.swap "update" "get" [], fun h => ?_⟩
  exact absurd (congrArg (Option.map (fun l => l.map Param.description)) h)
    (by decide)

/-! ## Claim C3: the incremental merge rules and the enum-union example -/

def c3ParamGet : Param :=
  Param.mk { name := "power_state", enum := some ["on", "off"] }

def c3ParamUpdate : Param :=
  Param.mk { name := "power_state", enum := some ["off", "suspended"] }

def c3OpGet : Operation :=
  { verb := "get", path := "/vcenter/vm", basePath := "", parameters := [c3ParamGet] }

def c3OpUpdate : Operation :=
  { verb := "update", path := "/vcenter/vm", basePath := "", parameters := [c3ParamUpdate] }

def c3Res : Resource := {
  name := "vcenter_vm",
  operations := [("get", c3OpGet), ("update", c3OpUpdate)] }

/-- C3: when a descriptor's name has already been seen, the merge step
(1) keeps the stored description if the new descriptor has none,
(2) keeps whichever description is longer when both are present and
differ, and (3) unions the new enum into the stored one (creating it
if absent) — at merge time the union is a concatenation whose final
collapse to a sorted duplicate-free set happens in the post-loop
rewriting.  Concretely, merging `power_state` with `enum=["on","off"]`
from `get` and `enum=["off","suspended"]` from `update` yields
`enum=["off","on","suspended"]` and `operationIds=["get","update"]`. -/
theorem c3_merge_rules_and_enum_union :
    (∀ (acc : List (String × Param)) (operationId : String) (p r : Param),
      dGet? acc p.name = some r →
      ∃ r2, dGet? (mergeOne acc operationId p) p.name = some r2 ∧
        (p.description = none → r2.description = r.description) ∧
        (∀ ds dp, r.description = some ds → p.description = some dp → ds ≠ dp →
          (pyLen dp > pyLen ds → r2.description = some dp) ∧
          (pyLen ds > pyLen dp → r2.description = some ds)) ∧
        (r2.enum.isSome ↔ (r.enum.isSome ∨ p.enum.isSome)) ∧
        (∀ x, x ∈ r2.enum.getD [] ↔
          (x ∈ r.enum.getD [] ∨ x ∈ p.enum.getD []))) ∧
    (parameters 1 noDefs c3Res ["get", "update"]).map
        (fun l => l.map (fun p => (p.name, p.enum, p.operationIds))) =
      some [("power_state", some ["off", "on", "suspended"],
              some ["get", "update"]),
            ("state", some ["get", "update"], none)] := by
  constructor
  · intro acc operationId p r hr
    refine ⟨mergeStep (some r) operationId p, ?_, ?_, ?_, ?_, ?_⟩
    · rw [← hr]
      exact dGet?_dSet_self acc p.name _
    · intro hd
      show descMerge r.description p.description = r.description
      rw [hd]
      rfl
    · intro ds dp hds hdp hne
      have hshow : (mergeStep (some r) operationId p).description =
          descMerge r.description p.description := rfl
      rw [hshow, hds, hdp]
      simp only [descMerge]
      constructor
      · intro hlen
        rw [if_pos ⟨hne, hlen⟩]
      · intro hlen
        rw [if_neg (fun hc => absurd hc.2 (by omega))]
    · have hshow : (mergeStep (some r) operationId p).enum =
          enumMerge r.enum p.enum := rfl
      rw [hshow]
      cases hpe : p.enum with
      | none => simp [enumMerge]
      | some e =>
        cases hre : r.enum with
        | none => simp [enumMerge]
        | some s => simp [enumMerge]
    · intro x
      have hshow : (mergeStep (some r) operationId p).enum =
          enumMerge r.enum p.enum := rfl
      rw [hshow]
      cases hpe : p.enum with
      | none => simp [enumMerge]
      | some e =>
        cases hre : r.enum with
        | none => simp [enumMerge]
        | some s => simp [enumMerge, List.mem_append]
  · rfl

/-! ## Properties of the merge accumulator -/

theorem mergeStep_name (st : Option Param) (op : String) (p : Param) :
    (mergeStep st op p).name = match st with
      | none => p.name
      | some r => r.name := by
  cases st <;> rfl

theorem mergeOne_dGet?_self (acc : List (String × Param)) (op : String)
    (p : Param) :
    dGet? (mergeOne acc op p) p.name = some (mergeStep (dGet? acc p.name) op p) :=
  dGet?_dSet_self acc p.name _

theorem mergeOne_dGet?_ne (acc : List (String × Param)) (op : String)
    (p : Param) {n : String} (h : n ≠ p.name) :
    dGet? (mergeOne acc op p) n = dGet? acc n :=
  dGet?_dSet_ne acc p.name n _ h

theorem mergeOne_mem_dKeys (acc : List (String × Param)) (op : String)
    (p : Param) (n : String) :
    n ∈ dKeys (mergeOne acc op p) ↔ n ∈ dKeys acc ∨ n = p.name := by
  unfold mergeOne
  rw [dKeys_dSet]
  cases hm : dMem acc p.name with
  | true =>
    rw [if_pos rfl]
    constructor
    · exact Or.inl
    · rintro (h | rfl)
      · exact h
      · exact (dMem_iff_mem_dKeys acc p.name).mp hm
  | false =>
    rw [if_neg (by simp)]
    rw [List.mem_append, List.mem_singleton]

theorem mergeOne_nodup (acc : List (String × Param)) (op : String) (p : Param)
    (h : (dKeys acc).Nodup) : (dKeys (mergeOne acc op p)).Nodup :=
  dKeys_nodup_dSet acc p.name _ h

theorem mergeOne_name_key (acc : List (String × Param)) (op : String)
    (p : Param) (hinv : ∀ kv ∈ acc, Param.name kv.2 = kv.1) :
    ∀ kv ∈ mergeOne acc op p, Param.name kv.2 = kv.1 := by
  apply dSet_name_key _ _ _ hinv
  rw [mergeStep_name]
  cases hg : dGet? acc p.name with
  | none => rfl
  | some r => exact dGet?_name acc p.name r hinv hg

theorem foldl_mergeOne_mem_dKeys (op : String) :
    ∀ (ps : List Param) (acc : List (String × Param)) (n : String),
      n ∈ dKeys (ps.foldl (fun acc p => mergeOne acc op p) acc) ↔
        n ∈ dKeys acc ∨ n ∈ ps.map Param.name
  | [], acc, n => by simp
  | q :: ps, acc, n => by
    rw [List.foldl_cons]
    rw [foldl_mergeOne_mem_dKeys op ps (mergeOne acc op q) n]
    rw [mergeOne_mem_dKeys]
    simp only [List.map_cons, List.mem_cons]
    tauto

theorem foldl_mergeOne_nodup (op : String) :
    ∀ (ps : List Param) (acc : List (String × Param)),
      (dKeys acc).Nodup →
      (dKeys (ps.foldl (fun acc p => mergeOne acc op p) acc)).Nodup
  | [], _, h => h
  | q :: ps, acc, h => by
    rw [List.foldl_cons]
    exact foldl_mergeOne_nodup op ps _ (mergeOne_nodup acc op q h)

theorem foldl_mergeOne_name_key (op : String) :
    ∀ (ps : List Param) (acc : List (String × Param)),
      (∀ kv ∈ acc, Param.name kv.2 = kv.1) →
      ∀ kv ∈ ps.foldl (fun acc p => mergeOne acc op p) acc,
        Param.name kv.2 = kv.1
  | [], _, h => h
  | q :: ps, acc, h => by
    rw [List.foldl_cons]
    exact foldl_mergeOne_name_key op ps _ (mergeOne_name_key acc op q h)

theorem processOp_mem_dKeys (acc : List (String × Param)) (op : String)
    (view : List Param) (n : String) :
    n ∈ dKeys (processOp acc op view) ↔
      n ∈ dKeys acc ∨ n ∈ view.map Param.name := by
  unfold processOp
  rw [foldl_mergeOne_mem_dKeys]
  have hp : List.Perm ((pySort byNameDesc view).map Param.name)
      (view.map Param.name) := (pySort_perm byNameDesc view).map Param.name
  rw [hp.mem_iff]

theorem processOp_nodup (acc : List (String × Param)) (op : String)
    (view : List Param) (h : (dKeys acc).Nodup) :
    (dKeys (processOp acc op view)).Nodup :=
  foldl_mergeOne_nodup op _ acc h

theorem processOp_name_key (acc : List (String × Param)) (op : String)
    (view : List Param) (h : ∀ kv ∈ acc, Param.name kv.2 = kv.1) :
    ∀ kv ∈ processOp acc op view, Param.name kv.2 = kv.1 :=
  foldl_mergeOne_name_key op _ acc h

theorem foldl_processOp_mem_dKeys :
    ∀ (views : List (String × List Param)) (acc : List (String × Param))
      (n : String),
      n ∈ dKeys (views.foldl (fun acc ov => processOp acc ov.1 ov.2) acc) ↔
        n ∈ dKeys acc ∨ ∃ ov ∈ views, n ∈ ov.2.map Param.name
  | [], acc, n => by simp
  | ov :: views, acc, n => by
    rw [List.foldl_cons]
    rw [foldl_processOp_mem_dKeys views _ n, processOp_mem_dKeys]
    simp only [List.mem_cons]
    constructor
    · rintro (⟨h | h⟩ | ⟨ov2, h2, h3⟩)
      · exact Or.inl h
      · exact Or.inr ⟨ov, Or.inl rfl, h⟩
      · exact Or.inr ⟨ov2, Or.inr h2, h3⟩
    · rintro (h | ⟨ov2, (rfl | h2), h3⟩)
      · exact Or.inl (Or.inl h)
      · exact Or.inl (Or.inr h3)
      · exact Or.inr ⟨ov2, h2, h3⟩

theorem mergeViews_mem_dKeys (views : List (String × List Param)) (n : String) :
    n ∈ dKeys (mergeViews views) ↔ ∃ ov ∈ views, n ∈ ov.2.map Param.name := by
  unfold mergeViews
  rw [foldl_processOp_mem_dKeys]
  simp [dKeys]

theorem mergeViews_nodup (views : List (String × List Param)) :
    (dKeys (mergeViews views)).Nodup := by
  unfold mergeViews
  have : ∀ (vs : List (String × List Param)) (acc : List (String × Param)),
      (dKeys acc).Nodup →
      (dKeys (vs.foldl (fun acc ov => processOp acc ov.1 ov.2) acc)).Nodup := by
    intro vs
    induction vs with
    | nil => exact fun _ h => h
    | cons ov vs ih =>
      intro acc h
      rw [List.foldl_cons]
      exact ih _ (processOp_nodup acc ov.1 ov.2 h)
  exact this views [] (by simp [dKeys])

theorem mergeViews_name_key (views : List (String × List Param)) :
    ∀ kv ∈ mergeViews views, Param.name kv.2 = kv.1 := by
  unfold mergeViews
  have : ∀ (vs : List (String × List Param)) (acc : List (String × Param)),
      (∀ kv ∈ acc, Param.name kv.2 = kv.1) →
      ∀ kv ∈ vs.foldl (fun acc ov => processOp acc ov.1 ov.2) acc,
        Param.name kv.2 = kv.1 := by
    intro vs
    induction vs with
    | nil => exact fun _ h => h
    | cons ov vs ih =>
      intro acc h
      rw [List.foldl_cons]
      exact ih _ (processOp_name_key acc ov.1 ov.2 h)
  exact this views [] (by intro kv h; cases h)

/-! ## Properties of the post-loop rewriting -/

theorem collapseEnum_name (p : Param) : (collapseEnum p).name = p.name := by
  unfold collapseEnum
  split <;> rfl

theorem collapseEnum_description (p : Param) :
    (collapseEnum p).description = p.description := by
  unfold collapseEnum
  split <;> rfl

theorem collapseEnum_required (p : Param) :
    (collapseEnum p).required = p.required := by
  unfold collapseEnum
  split <;> rfl

theorem collapseEnum_operationIds (p : Param) :
    (collapseEnum p).operationIds = p.operationIds := by
  unfold collapseEnum
  split <;> rfl

theorem applyRequired_name (p : Param) : (applyRequired p).name = p.name := by
  unfold applyRequired
  by_cases h : reqTruthy p.required = true
  · rw [if_pos h]
    cases p.description <;> rfl
  · rw [if_neg h]

theorem applyRequired_truthy (p : Param) (h : reqTruthy p.required = true) :
    (applyRequired p).required = none ∧
      (applyRequired p).description = some (match p.description with
        | some d => d ++ "\n" ++ reqSentence (p.operationIds.getD [])
        | none => reqSentence (p.operationIds.getD [])) := by
  unfold applyRequired
  rw [if_pos h]
  cases p.description <;> exact ⟨rfl, rfl⟩

theorem postprocessParam_name (p : Param) :
    (postprocessParam p).name = p.name := by
  unfold postprocessParam
  rw [applyRequired_name, collapseEnum_name]

theorem postprocessParam_truthy (p : Param) (h : reqTruthy p.required = true) :
    (postprocessParam p).required = none ∧
      (postprocessParam p).description = some (match p.description with
        | some d => d ++ "\n" ++ reqSentence (p.operationIds.getD [])
        | none => reqSentence (p.operationIds.getD [])) := by
  unfold postprocessParam
  have h2 : reqTruthy (collapseEnum p).required = true := by
    rw [collapseEnum_required]
    exact h
  obtain ⟨h3, h4⟩ := applyRequired_truthy (collapseEnum p) h2
  refine ⟨h3, ?_⟩
  rw [h4, collapseEnum_description, collapseEnum_operationIds]

/-! ## Claim C6: the synthetic `state` parameter -/

theorem paramNameLt_trans (a b c : Param) (hab : paramNameLt a b = true)
    (hbc : paramNameLt b c = true) : paramNameLt a c = true :=
  strLt_trans hab hbc

theorem paramNameLt_asymm (a b : Param) (h : paramNameLt a b = true) :
    paramNameLt b a = false :=
  strLt_asymm h

/-- The synthetic `state` descriptor exactly as the claim words it:
name `state`, default `present`, type `str`, enum the sorted list of
all included operation identifiers. -/
def stateParamSpec (order : List String) : Param := Param.mk {
  name := "state"
  default := some "present"
  type := some "str"
  enum := some (pySort strLt (pyDedup order)) }

/-- In a dict with unique keys, `name = key` entries, and `k ↦ v`, the
values whose name is `k` are exactly `[v]`. -/
theorem dValues_filter_key :
    ∀ (d : List (String × Param)) (k : String) (v : Param),
      (∀ kv ∈ d, Param.name kv.2 = kv.1) → (dKeys d).Nodup →
      dGet? d k = some v →
      (dValues d).filter (fun p => p.name == k) = [v]
  | [], _, _, _, _, hget => by cases hget
  | kv :: rest, k, v, hinv, hnd, hget => by
    have hinvr : ∀ kv2 ∈ rest, Param.name kv2.2 = kv2.1 :=
      fun kv2 h2 => hinv kv2 (List.mem_cons_of_mem _ h2)
    have hndc : kv.1 ∉ dKeys rest ∧ (dKeys rest).Nodup := by
      have : dKeys (kv :: rest) = kv.1 :: dKeys rest := rfl
      rw [this] at hnd
      exact ⟨(List.nodup_cons.mp hnd).1, (List.nodup_cons.mp hnd).2⟩
    cases hk : kv.1 == k with
    | true =>
      have hkk : kv.1 = k := by simpa using hk
      rw [dGet?_cons_pos hk] at hget
      have hv : kv.2 = v := Option.some.inj hget
      have hname : (kv.2.name == k) = true := by
        rw [hinv kv (List.mem_cons_self _ _), hkk]
        simp
      show List.filter (fun p => p.name == k) (kv.2 :: dValues rest) = [v]
      rw [List.filter_cons, if_pos hname]
      have hrest : (dValues rest).filter (fun p => p.name == k) = [] := by
        rw [List.filter_eq_nil_iff]
        intro a ha
        rcases List.mem_map.mp ha with ⟨kv2, hkv2, he⟩
        rw [← he, hinvr kv2 hkv2]
        have : kv2.1 ≠ k := by
          intro hc
          apply hndc.1
          rw [hkk]
          rw [← hc] at *
          exact (dMem_iff_mem_dKeys rest kv2.1).mp (by
            simp only [dMem, List.any_eq_true]
            exact ⟨kv2, hkv2, by simp⟩)
        simp [this]
      rw [hrest, hv]
    | false =>
      rw [dGet?_cons_neg hk] at hget
      have hname : (kv.2.name == k) = false := by
        rw [hinv kv (List.mem_cons_self _ _)]
        exact hk
      show List.filter (fun p => p.name == k) (kv.2 :: dValues rest) = [v]
      rw [List.filter_cons, if_neg (boolNotTrue hname)]
      exact dValues_filter_key rest k v hinvr hndc.2 hget

/-- The postprocessing map keeps keys, the `name = key` invariant and
key uniqueness. -/
theorem post_map_facts (merged : List (String × Param))
    (hinv : ∀ kv ∈ merged, Param.name kv.2 = kv.1) :
    (∀ kv ∈ merged.map (fun kv => (kv.1, postprocessParam kv.2)),
      Param.name kv.2 = kv.1) ∧
      dKeys (merged.map (fun kv => (kv.1, postprocessParam kv.2))) =
        dKeys merged := by
  constructor
  · intro kv hkv
    rcases List.mem_map.mp hkv with ⟨kv0, h0, he⟩
    rw [← he]
    show (postprocessParam kv0.2).name = kv0.1
    rw [postprocessParam_name]
    exact hinv kv0 h0
  · unfold dKeys
    rw [List.map_map]
    apply List.map_congr_left
    intro kv _
    rfl

/-- C6: for every resource and iteration order (including resources
whose operations themselves declare a parameter named `state`), a
successful `parameters()` run returns a list whose only descriptor
named `state` is the synthetic one — with `default="present"`,
`type="str"` and `enum` the sorted duplicate-free list of all included
operation identifiers — and the whole list is sorted by name. -/
theorem c6_state_parameter :
    ∀ (fuel : Nat) (defs : Definitions) (res : Resource) (order : List String)
      (L : List Param),
      parameters fuel defs res order = some L →
      L.filter (fun p => p.name == "state") = [stateParam order] ∧
        stateParam order = stateParamSpec order ∧
        SortedB paramNameLt L := by
  intro fuel defs res order L h
  unfold parameters at h
  cases hv : opViews fuel defs res order with
  | none => rw [hv] at h; cases h
  | some views =>
    rw [hv] at h
    have hL : L = finalizeParams (mergeViews views) order := (Option.some.inj h).symm
    subst hL
    refine ⟨?_, rfl, ?_⟩
    · unfold finalizeParams
      obtain ⟨hinv2, hk2⟩ := post_map_facts (mergeViews views)
        (mergeViews_name_key views)
      have hnd2 : (dKeys ((mergeViews views).map
          (fun kv => (kv.1, postprocessParam kv.2)))).Nodup := by
        rw [hk2]
        exact mergeViews_nodup views
      have hinv3 := dSet_name_key _ "state" (stateParam order) hinv2 rfl
      have hnd3 := dKeys_nodup_dSet _ "state" (stateParam order) hnd2
      have hget := dGet?_dSet_self ((mergeViews views).map
        (fun kv => (kv.1, postprocessParam kv.2))) "state" (stateParam order)
      have hfv := dValues_filter_key _ "state" (stateParam order) hinv3 hnd3 hget
      have hperm := (pySort_perm paramNameLt (dValues (dSet ((mergeViews views).map
        (fun kv => (kv.1, postprocessParam kv.2))) "state" (stateParam order)))).filter
        (fun p => p.name == "state")
      rw [hfv] at hperm
      exact List.perm_singleton.mp hperm
    · exact pySort_sortedB paramNameLt paramNameLt_trans paramNameLt_asymm _

/-- A resource with no operations at all. -/
def emptyRes : Resource := { name := "empty", operations := [] }

/-- Witness instantiating C6 on the empty resource with order
`["get"]`. -/
theorem c6_state_parameter_witness :
    ([stateParam ["get"]] : List Param).filter (fun p => p.name == "state") =
        [stateParam ["get"]] ∧
      stateParam ["get"] = stateParamSpec ["get"] ∧
      SortedB paramNameLt [stateParam ["get"]] :=
  c6_state_parameter 1 noDefs emptyRes ["get"] [stateParam ["get"]] rfl

/-! ## Claim C3 witness -/

def c3WitStored : Param :=
  Param.mk { name := "a", description := some "xx", enum := some ["1"] }

def c3WitNew : Param :=
  Param.mk { name := "a", description := some "hello", enum := some ["2"] }

/-- Witness instantiating the merge rules of C3 on a concrete
accumulator. -/
theorem c3_merge_rules_witness :
    ∃ r2, dGet? (mergeOne [("a", c3WitStored)] "update" c3WitNew)
        c3WitNew.name = some r2 ∧
      (c3WitNew.description = none → r2.description = c3WitStored.description) ∧
      (∀ ds dp, c3WitStored.description = some ds →
        c3WitNew.description = some dp → ds ≠ dp →
        (pyLen dp > pyLen ds → r2.description = some dp) ∧
        (pyLen ds > pyLen dp → r2.description = some ds)) ∧
      (r2.enum.isSome ↔ (c3WitStored.enum.isSome ∨ c3WitNew.enum.isSome)) ∧
      (∀ x, x ∈ r2.enum.getD [] ↔
        (x ∈ c3WitStored.enum.getD [] ∨ x ∈ c3WitNew.enum.getD [])) :=
  c3_merge_rules_and_enum_union.1 [("a", c3WitStored)] "update" c3WitNew
    c3WitStored rfl

/-! ## Claim C2: the required-to-description rewriting -/

def c2ParamGet : Param := Param.mk { name := "a", required := some (.rb true) }

def c2ParamUpdate : Param := Param.mk { name := "a" }

def c2OpGet : Operation :=
  { verb := "get", path := "/x", basePath := "", parameters := [c2ParamGet] }

def c2OpUpdate : Operation :=
  { verb := "update", path := "/x", basePath := "", parameters := [c2ParamUpdate] }

def c2Res : Resource := {
  name := "x",
  operations := [("get", c2OpGet), ("update", c2OpUpdate)] }

/-- C2 counterexample: parameter `a` is required only by operation
`get` (the `update` view does not mark it required), yet the generated
sentence names the sorted set of **all** operation identifiers that
reference `a` — `['get', 'update']` — not the set of identifiers for
which it is required, `['get']`. -/
theorem c2_required_sentence_counterexample :
    (parameters 1 noDefs c2Res ["get", "update"]).map
        (fun l => l.map (fun p => (p.name, p.description, p.required))) =
      some [("a", some "Required with I(state=[\x27get\x27, \x27update\x27])",
              none),
            ("state", none, none)] ∧
      c2ParamUpdate.required = none ∧
      ("Required with I(state=[\x27get\x27, \x27update\x27])" : String) ≠
        "Required with I(state=[\x27get\x27])" :=
  ⟨rfl, rfl, by decide⟩

theorem dGet?_mem (d : List (String × Param)) (n : String) (r : Param)
    (h : dGet? d n = some r) : ∃ kv ∈ d, kv.1 = n ∧ kv.2 = r := by
  unfold dGet? at h
  cases hf : d.find? (fun x => x.1 == n) with
  | none => rw [hf] at h; cases h
  | some kv =>
    rw [hf] at h
    refine ⟨kv, List.mem_of_find?_eq_some hf, ?_, Option.some.inj h⟩
    have := List.find?_some (p := fun x : String × Param => x.1 == n) hf
    simpa using this

theorem mem_dSet_of_ne (d : List (String × Param)) (k : String) (v : Param)
    (kv : String × Param) (h : kv ∈ d) (hne : (kv.1 == k) = false) :
    kv ∈ dSet d k v := by
  rw [dSet_eq]
  cases hm : dMem d k with
  | true =>
    rw [if_pos rfl]
    refine List.mem_map.mpr ⟨kv, h, ?_⟩
    rw [setFn, if_neg (boolNotTrue hne)]
  | false =>
    rw [if_neg (by simp)]
    exact List.mem_append_left _ h

/-- C2 (amended): after the merge loop, every merged descriptor whose
`required` value is truthy is turned, in the returned list, into a
descriptor without the `required` key whose description is appended to
(or created as) the sentence naming the sorted set of **all** the
operation identifiers recorded in the descriptor's `operationIds`
(every included operation that references the parameter), not merely
those for which it is required.  (The merged entry stored under the
key `"state"` is excluded: it is overwritten by the synthetic `state`
descriptor after the rewriting.) -/
theorem c2_required_rewriting_amended :
    ∀ (views : List (String × List Param)) (order : List String) (n : String)
      (r : Param),
      dGet? (mergeViews views) n = some r →
      reqTruthy r.required = true →
      n ≠ "state" →
      ∃ p, p ∈ finalizeParams (mergeViews views) order ∧ p.name = n ∧
        p.required = none ∧
        p.description = some (match r.description with
          | some d => d ++ "\n" ++ reqSentence (r.operationIds.getD [])
          | none => reqSentence (r.operationIds.getD [])) := by
  intro views order n r hget htr hne
  refine ⟨postprocessParam r, ?_, ?_, (postprocessParam_truthy r htr).1,
    (postprocessParam_truthy r htr).2⟩
  · unfold finalizeParams
    apply (pySort_perm paramNameLt _).mem_iff.mpr
    obtain ⟨kv, hkv, hk1, hk2⟩ := dGet?_mem _ _ _ hget
    have hpost : (n, postprocessParam r) ∈
        (mergeViews views).map (fun kv => (kv.1, postprocessParam kv.2)) := by
      refine List.mem_map.mpr ⟨kv, hkv, ?_⟩
      rw [hk1, hk2]
    have hin := mem_dSet_of_ne _ "state" (stateParam order) _ hpost
      (by simp [hne])
    exact List.mem_map.mpr ⟨(n, postprocessParam r), hin, rfl⟩
  · rw [postprocessParam_name]
    exact dGet?_name _ n r (mergeViews_name_key views) hget

/-- The merged entry for `a` after processing only operation `get` of
the C2 resource. -/
def c2WitMerged : Param := Param.mk {
  name := "a"
  required := some (.rb true)
  operationIds := some ["get"] }

/-- Witness instantiating the amended C2 theorem. -/
theorem c2_required_rewriting_amended_witness :
    ∃ p, p ∈ finalizeParams (mergeViews [("get", [c2ParamGet])]) ["get"] ∧
      p.name = "a" ∧ p.required = none ∧
      p.description = some (match c2WitMerged.description with
        | some d => d ++ "\n" ++ reqSentence (c2WitMerged.operationIds.getD [])
        | none => reqSentence (c2WitMerged.operationIds.getD [])) :=
  c2_required_rewriting_amended [("get", [c2ParamGet])] ["get"] "a" c2WitMerged
    rfl rfl (by decide)

/-! ## Claim C1 (amended): what is and is not order-independent -/

theorem pyDedup_mem : ∀ (l : List String) (a : String), a ∈ pyDedup l ↔ a ∈ l
  | [], a => by simp [pyDedup]
  | x :: xs, a => by
    simp only [pyDedup, List.mem_cons, List.mem_filter]
    constructor
    · rintro (rfl | ⟨h1, _⟩)
      · exact Or.inl rfl
      · exact Or.inr ((pyDedup_mem xs a).mp h1)
    · rintro (rfl | h)
      · exact Or.inl rfl
      · by_cases hax : a = x
        · exact Or.inl hax
        · refine Or.inr ⟨(pyDedup_mem xs a).mpr h, ?_⟩
          simp [hax]

theorem pyDedup_nodup : ∀ l : List String, (pyDedup l).Nodup
  | [] => List.nodup_nil
  | x :: xs => by
    simp only [pyDedup]
    refine List.nodup_cons.mpr ⟨?_, (pyDedup_nodup xs).filter _⟩
    intro hmem
    have := (List.mem_filter.mp hmem).2
    simp at this

/-- Duplicate-free string lists with the same members sort to the same
list. -/
theorem pySort_strLt_ext (l1 l2 : List String) (h1 : l1.Nodup) (h2 : l2.Nodup)
    (hm : ∀ a, a ∈ l1 ↔ a ∈ l2) : pySort strLt l1 = pySort strLt l2 := by
  have hp : List.Perm l1 l2 := (List.perm_ext_iff_of_nodup h1 h2).mpr hm
  exact eq_of_perm_of_sortedB strLt (fun a b hab hba => strLt_conn hab hba)
    (((pySort_perm strLt l1).trans hp).trans (pySort_perm strLt l2).symm)
    (pySort_sortedB strLt (fun a b c hab hbc => strLt_trans hab hbc)
      (fun a b h => strLt_asymm h) l1)
    (pySort_sortedB strLt (fun a b c hab hbc => strLt_trans hab hbc)
      (fun a b h => strLt_asymm h) l2)

/-- The synthetic `state` descriptor does not depend on the iteration
order of the operation-identifier set. -/
theorem stateParam_perm (o1 o2 : List String) (h : List.Perm o1 o2) :
    stateParam o1 = stateParam o2 := by
  have he : pySort strLt (pyDedup o1) = pySort strLt (pyDedup o2) :=
    pySort_strLt_ext _ _ (pyDedup_nodup o1) (pyDedup_nodup o2)
      (fun a => by rw [pyDedup_mem, pyDedup_mem, h.mem_iff])
  unfold stateParam
  rw [he]

theorem optMap_none_iff (f : α → Option β) :
    ∀ l : List α, (optMap f l = none ↔ ∃ x ∈ l, f x = none)
  | [] => by simp [optMap]
  | a :: as => by
    rw [optMap]
    cases hfa : f a with
    | none =>
      exact ⟨fun _ => ⟨a, List.mem_cons_self a as, hfa⟩, fun _ => rfl⟩
    | some b =>
      cases hrest : optMap f as with
      | none =>
        refine ⟨fun _ => ?_, fun _ => rfl⟩
        obtain ⟨x, hx, hfx⟩ := (optMap_none_iff f as).mp hrest
        exact ⟨x, List.mem_cons_of_mem a hx, hfx⟩
      | some bs =>
        refine ⟨fun h => Option.noConfusion h, ?_⟩
        rintro ⟨x, hx, hfx⟩
        rcases List.mem_cons.mp hx with rfl | hx2
        · rw [hfa] at hfx; cases hfx
        · have := (optMap_none_iff f as).mpr ⟨x, hx2, hfx⟩
          rw [hrest] at this
          cases this

theorem optMap_some_filterMap (f : α → Option β) :
    ∀ {l : List α} {v : List β}, optMap f l = some v → v = l.filterMap f
  | [], v, h => by
    simp only [optMap, Option.some.injEq] at h
    rw [← h]
    rfl
  | a :: as, v, h => by
    rw [optMap] at h
    cases hfa : f a with
    | none => rw [hfa] at h; cases h
    | some b =>
      rw [hfa] at h
      cases hrest : optMap f as with
      | none => rw [hrest] at h; cases h
      | some bs =>
        rw [hrest] at h
        have hv : v = b :: bs := (Option.some.inj h).symm
        rw [hv, List.filterMap_cons_some hfa,
          optMap_some_filterMap f hrest]

theorem opViews_none_iff (fuel : Nat) (defs : Definitions) (res : Resource)
    (order : List String) :
    opViews fuel defs res order = none ↔
      ∃ op ∈ order, viewOf fuel defs res op = none := by
  unfold opViews
  cases hm : optMap (viewOf fuel defs res) order with
  | none =>
    exact ⟨fun _ => (optMap_none_iff _ order).mp hm, fun _ => rfl⟩
  | some l =>
    refine ⟨fun h => Option.noConfusion h, fun hex => ?_⟩
    have := (optMap_none_iff _ order).mpr hex
    rw [hm] at this
    cases this

theorem opViews_some_eq (fuel : Nat) (defs : Definitions) (res : Resource)
    (order : List String) (views : List (String × List Param))
    (h : opViews fuel defs res order = some views) :
    views = order.filterMap (fun op => (viewOf fuel defs res op).bind id) := by
  unfold opViews at h
  cases hm : optMap (viewOf fuel defs res) order with
  | none => rw [hm] at h; cases h
  | some l =>
    rw [hm] at h
    have hv : views = l.filterMap id := (Option.some.inj h).symm
    rw [hv, optMap_some_filterMap _ hm, List.filterMap_filterMap]

theorem map_insertAfterEq (f : α → β) (ltA : α → α → Bool) (ltB : β → β → Bool)
    (hc : ∀ a b, ltA a b = ltB (f a) (f b)) (x : α) :
    ∀ l : List α, (insertAfterEq ltA x l).map f = insertAfterEq ltB (f x) (l.map f)
  | [] => rfl
  | y :: ys => by
    rw [insertAfterEq, List.map_cons, insertAfterEq, ← hc x y]
    cases h : ltA x y with
    | true => rw [if_pos rfl, if_pos rfl, List.map_cons, List.map_cons]
    | false =>
      rw [if_neg (by simp), if_neg (by simp), List.map_cons,
        map_insertAfterEq f ltA ltB hc x ys]

theorem map_pySort (f : α → β) (ltA : α → α → Bool) (ltB : β → β → Bool)
    (hc : ∀ a b, ltA a b = ltB (f a) (f b)) (l : List α) :
    (pySort ltA l).map f = pySort ltB (l.map f) := by
  suffices h : ∀ (l acc : List α),
      (List.foldl (fun acc x => insertAfterEq ltA x acc) acc l).map f =
        List.foldl (fun acc x => insertAfterEq ltB x acc) (acc.map f)
          (l.map f) by
    exact h l []
  intro l
  induction l with
  | nil => intro acc; rfl
  | cons x xs ih =>
    intro acc
    rw [List.foldl_cons, List.map_cons, List.foldl_cons,
      ← map_insertAfterEq f ltA ltB hc x acc]
    exact ih _

theorem dValues_names (d : List (String × Param))
    (hinv : ∀ kv ∈ d, Param.name kv.2 = kv.1) :
    (dValues d).map Param.name = dKeys d := by
  unfold dValues dKeys
  rw [List.map_map]
  exact List.map_congr_left hinv

theorem mem_dKeys_dSet (d : List (String × Param)) (k : String) (v : Param)
    (n : String) : n ∈ dKeys (dSet d k v) ↔ n ∈ dKeys d ∨ n = k := by
  rw [dKeys_dSet]
  cases hm : dMem d k with
  | true =>
    rw [if_pos rfl]
    exact ⟨Or.inl, fun h => h.elim id
      (fun hn => hn ▸ (dMem_iff_mem_dKeys d k).mp hm)⟩
  | false =>
    rw [if_neg (by simp), List.mem_append, List.mem_singleton]

/-- The name column of a finished `parameters()` list is the sorted key
set of the final accumulator. -/
theorem finalize_names (merged : List (String × Param)) (order : List String)
    (hinv : ∀ kv ∈ merged, Param.name kv.2 = kv.1) :
    (finalizeParams merged order).map Param.name =
      pySort strLt (dKeys (dSet (merged.map
        (fun kv => (kv.1, postprocessParam kv.2))) "state" (stateParam order))) := by
  unfold finalizeParams
  rw [map_pySort Param.name paramNameLt strLt (fun a b => rfl)]
  rw [dValues_names]
  exact dSet_name_key _ _ _ (post_map_facts merged hinv).1 rfl

/-- C1 (amended): the output of `parameters()` is a deterministic
function of the resource, the definitions table, and the iteration
order of the operation-identifier set; across two iteration orders of
the same set (permutations), success/failure, the sorted name column
of the output, and the synthetic `state` descriptor all coincide —
only the per-descriptor merged fields (description, type, required,
…), merged with first-seen / longer-wins tie-breaks, may differ, as
the counterexample shows. -/
theorem c1_order_dependence_amended :
    ∀ (fuel : Nat) (defs : Definitions) (res : Resource) (o1 o2 : List String),
      List.Perm o1 o2 →
      ((parameters fuel defs res o1).map (fun l => l.map Param.name) =
        (parameters fuel defs res o2).map (fun l => l.map Param.name)) ∧
        stateParam o1 = stateParam o2 := by
  intro fuel defs res o1 o2 hperm
  refine ⟨?_, stateParam_perm o1 o2 hperm⟩
  cases hv1 : opViews fuel defs res o1 with
  | none =>
    cases hv2 : opViews fuel defs res o2 with
    | none =>
      have hp1 : parameters fuel defs res o1 = none := by
        unfold parameters; rw [hv1]
      have hp2 : parameters fuel defs res o2 = none := by
        unfold parameters; rw [hv2]
      rw [hp1, hp2]
    | some views2 =>
      obtain ⟨op, hop, hcrash⟩ := (opViews_none_iff fuel defs res o1).mp hv1
      have hc2 : opViews fuel defs res o2 = none :=
        (opViews_none_iff fuel defs res o2).mpr
          ⟨op, hperm.mem_iff.mp hop, hcrash⟩
      rw [hv2] at hc2
      cases hc2
  | some views1 =>
    cases hv2 : opViews fuel defs res o2 with
    | none =>
      obtain ⟨op, hop, hcrash⟩ := (opViews_none_iff fuel defs res o2).mp hv2
      have hc1 : opViews fuel defs res o1 = none :=
        (opViews_none_iff fuel defs res o1).mpr
          ⟨op, hperm.mem_iff.mpr hop, hcrash⟩
      rw [hv1] at hc1
      cases hc1
    | some views2 =>
      have hp1 : parameters fuel defs res o1 =
          some (finalizeParams (mergeViews views1) o1) := by
        unfold parameters; rw [hv1]
      have hp2 : parameters fuel defs res o2 =
          some (finalizeParams (mergeViews views2) o2) := by
        unfold parameters; rw [hv2]
      rw [hp1, hp2]
      have hvp : List.Perm views1 views2 := by
        rw [opViews_some_eq fuel defs res o1 views1 hv1,
          opViews_some_eq fuel defs res o2 views2 hv2]
        exact hperm.filterMap _
      have hn : (finalizeParams (mergeViews views1) o1).map Param.name =
          (finalizeParams (mergeViews views2) o2).map Param.name := by
        rw [finalize_names _ _ (mergeViews_name_key views1),
          finalize_names _ _ (mergeViews_name_key views2),
          stateParam_perm o1 o2 hperm]
        apply pySort_strLt_ext
        · exact dKeys_nodup_dSet _ _ _ (by
            rw [(post_map_facts _ (mergeViews_name_key views1)).2]
            exact mergeViews_nodup views1)
        · exact dKeys_nodup_dSet _ _ _ (by
            rw [(post_map_facts _ (mergeViews_name_key views2)).2]
            exact mergeViews_nodup views2)
        · intro a
          rw [mem_dKeys_dSet, mem_dKeys_dSet,
            (post_map_facts _ (mergeViews_name_key views1)).2,
            (post_map_facts _ (mergeViews_name_key views2)).2,
            mergeViews_mem_dKeys, mergeViews_mem_dKeys]
          constructor
          · rintro (⟨ov, hov, h⟩ | rfl)
            · exact Or.inl ⟨ov, hvp.mem_iff.mp hov, h⟩
            · exact Or.inr rfl
          · rintro (⟨ov, hov, h⟩ | rfl)
            · exact Or.inl ⟨ov, hvp.mem_iff.mpr hov, h⟩
            · exact Or.inr rfl
      rw [Option.map_some', Option.map_some', hn]

/-- Witness instantiating the amended C1 theorem on the C1 resource
and the two iteration orders of its operation set. -/
theorem c1_order_dependence_amended_witness :
    ((parameters 1 noDefs c1Res ["get", "update"]).map
        (fun l => l.map Param.name) =
      (parameters 1 noDefs c1Res ["update", "get"]).map
        (fun l => l.map Param.name)) ∧
      stateParam ["get", "update"] = stateParam ["update", "get"] :=
  c1_order_dependence_amended 1 noDefs c1Res ["get", "update"]
    ["update", "get"] (List.Perm.swap "update" "get" [])

/-! ## The operation index: `SwaggerFile.init_resources` -/

/-- Generic string-keyed dict membership (for the resources dict). -/
def gMem (d : List (String × α)) (k : String) : Bool := d.any (·.1 == k)

/-- Generic dict lookup. -/
def gGet? (d : List (String × α)) (k : String) : Option α :=
  (d.find? (·.1 == k)).map (·.2)

/-- Generic dict assignment (update in place, else append). -/
def gSet (d : List (String × α)) (k : String) (v : α) : List (String × α) :=
  if gMem d k then d.map (fun kv => if kv.1 == k then (k, v) else kv)
  else d ++ [(k, v)]

theorem gGet?_cons_pos {kv : String × α} {rest : List (String × α)}
    {k : String} (h : (kv.1 == k) = true) :
    gGet? (kv :: rest) k = some kv.2 := by
  unfold gGet?
  rw [List.find?_cons_of_pos (p := fun x : String × α => x.1 == k) _ h]
  rfl

theorem gGet?_cons_neg {kv : String × α} {rest : List (String × α)}
    {k : String} (h : (kv.1 == k) = false) :
    gGet? (kv :: rest) k = gGet? rest k := by
  unfold gGet?
  rw [List.find?_cons_of_neg _ (by simp [h])]

theorem gGet?_map_set_self : ∀ (d : List (String × α)) (k : String) (v : α),
    gMem d k = true →
    gGet? (d.map (fun kv => if kv.1 == k then (k, v) else kv)) k = some v
  | [], _, _, hm => by cases hm
  | kv :: rest, k, v, hm => by
    cases hk : kv.1 == k with
    | true =>
      rw [List.map_cons, if_pos hk]
      exact gGet?_cons_pos (by simp)
    | false =>
      rw [gMem, List.any_cons, hk, Bool.false_or] at hm
      rw [List.map_cons, if_neg (boolNotTrue hk), gGet?_cons_neg hk]
      exact gGet?_map_set_self rest k v hm

theorem gGet?_map_set_ne : ∀ (d : List (String × α)) (k k2 : String) (v : α),
    k2 ≠ k →
    gGet? (d.map (fun kv => if kv.1 == k then (k, v) else kv)) k2 = gGet? d k2
  | [], _, _, _, _ => rfl
  | kv :: rest, k, k2, v, h => by
    cases hk : kv.1 == k with
    | true =>
      have hkv : kv.1 = k := by simpa using hk
      rw [List.map_cons, if_pos hk, gGet?_cons_neg (by simp [Ne.symm h]),
        gGet?_cons_neg (by simp [hkv, Ne.symm h])]
      exact gGet?_map_set_ne rest k k2 v h
    | false =>
      rw [List.map_cons, if_neg (boolNotTrue hk)]
      cases hk2 : kv.1 == k2 with
      | true => rw [gGet?_cons_pos hk2, gGet?_cons_pos hk2]
      | false =>
        rw [gGet?_cons_neg hk2, gGet?_cons_neg hk2]
        exact gGet?_map_set_ne rest k k2 v h

theorem gGet?_append_single_self : ∀ (d : List (String × α)) (k : String)
    (v : α), gMem d k = false → gGet? (d ++ [(k, v)]) k = some v
  | [], _, _, _ => gGet?_cons_pos (by simp)
  | kv :: rest, k, v, hm => by
    rw [gMem, List.any_cons, Bool.or_eq_false_iff] at hm
    rw [List.cons_append, gGet?_cons_neg hm.1]
    exact gGet?_append_single_self rest k v hm.2

theorem gGet?_append_single_ne : ∀ (d : List (String × α)) (k k2 : String)
    (v : α), k2 ≠ k → gGet? (d ++ [(k, v)]) k2 = gGet? d k2
  | [], _, _, _, h => gGet?_cons_neg (by simp [Ne.symm h])
  | kv :: rest, k, k2, v, h => by
    cases hk2 : kv.1 == k2 with
    | true => rw [List.cons_append, gGet?_cons_pos hk2, gGet?_cons_pos hk2]
    | false =>
      rw [List.cons_append, gGet?_cons_neg hk2, gGet?_cons_neg hk2]
      exact gGet?_append_single_ne rest k k2 v h

theorem gGet?_gSet_self (d : List (String × α)) (k : String) (v : α) :
    gGet? (gSet d k v) k = some v := by
  unfold gSet
  cases hm : gMem d k with
  | true =>
    rw [if_pos rfl]
    exact gGet?_map_set_self d k v hm
  | false =>
    rw [if_neg (by simp)]
    exact gGet?_append_single_self d k v hm

theorem gGet?_gSet_ne (d : List (String × α)) (k k2 : String) (v : α)
    (h : k2 ≠ k) : gGet? (gSet d k v) k2 = gGet? d k2 := by
  unfold gSet
  cases hm : gMem d k with
  | true =>
    rw [if_pos rfl]
    exact gGet?_map_set_ne d k k2 v h
  | false =>
    rw [if_neg (by simp)]
    exact gGet?_append_single_ne d k k2 v h

/-- The duplicate-operation failure of `init_resources`.  The source
raises a bare Python `Exception` whose message is
`"operationId already defined: %s vs %s"`; the specification calls
this error kind `DuplicateOperationError`.  The payload records the
resource name and the doubly-registered operation identifier. -/
inductive GenError where
  | duplicateOperation : String → String → GenError

/-- A `Path` object as consumed by `init_resources`: its URL template
and its operations dict (verb → operation tuple) as built by
`load_paths`, one entry per verb defined on the path.  (The source
also sets `resources[name].description = ""` on creation; the
description is never read by the indexing and is not modelled.) -/
structure PathEntry where
  path : String
  operations : List (String × Operation)

/-- The verb strings a path registers. -/
def peVerbs (pe : PathEntry) : List String := pe.operations.map (·.1)

/-- The verbs registered so far under resource name `n`. -/
def resVerbs (resources : List (String × Resource)) (n : String) :
    List String :=
  match gGet? resources n with
  | none => []
  | some r => r.operations.map (·.1)

/-- The inner verb loop of `init_resources`: register each verb,
failing if it is already present. -/
def addVerbs (r : Resource) :
    List (String × Operation) → Except GenError Resource
  | [] => .ok r
  | (verb, v) :: rest =>
    if (r.operations.find? (·.1 == verb)).isSome then
      .error (.duplicateOperation r.name verb)
    else
      addVerbs { r with operations := r.operations ++ [(verb, v)] } rest

/-- One iteration of the outer loop of `init_resources`: create the
resource on first sight of its derived name, then register the path's
verbs. -/
def r0Of (resources : List (String × Resource)) (name : String) : Resource :=
  match gGet? resources name with
  | none => { name := name, operations := [] }
  | some r => r

def registerPath (resources : List (String × Resource)) (pe : PathEntry) :
    Except GenError (List (String × Resource)) :=
  match addVerbs (r0Of resources (path_to_name pe.path)) pe.operations with
  | .error e => .error e
  | .ok r => .ok (gSet resources (path_to_name pe.path) r)

def init_resources_aux (resources : List (String × Resource)) :
    List PathEntry → Except GenError (List (String × Resource))
  | [] => .ok resources
  | pe :: rest =>
    match registerPath resources pe with
    | .error e => .error e
    | .ok resources2 => init_resources_aux resources2 rest

/-- Embedding of `SwaggerFile.init_resources`
(src/refresh_modules.py:621). -/
def init_resources (paths : List PathEntry) :
    Except GenError (List (String × Resource)) :=
  init_resources_aux [] paths

/-! ## Claim C8: fatal duplicate registration -/

theorem gMem_iff (d : List (String × α)) (k : String) :
    gMem d k = true ↔ k ∈ d.map (·.1) := by
  simp only [gMem, List.any_eq_true, List.mem_map]
  constructor
  · rintro ⟨kv, hkv, he⟩
    exact ⟨kv, hkv, beq_iff_eq.mp he⟩
  · rintro ⟨kv, hkv, he⟩
    exact ⟨kv, hkv, by simp [he]⟩

theorem gMem_append (d e : List (String × α)) (k : String) :
    gMem (d ++ e) k = (gMem d k || gMem e k) := List.any_append

/-- The membership test of the verb loop agrees with `gMem`. -/
theorem find?_isSome_eq_gMem (d : List (String × α)) (k : String) :
    (d.find? (·.1 == k)).isSome = gMem d k := by
  induction d with
  | nil => rfl
  | cons kv rest ih =>
    cases hk : kv.1 == k with
    | true =>
      rw [List.find?_cons_of_pos (p := fun x : String × α => x.1 == k) _ hk]
      rw [gMem, List.any_cons, hk]
      rfl
    | false =>
      rw [List.find?_cons_of_neg (p := fun x : String × α => x.1 == k) _
        (boolNotTrue hk), gMem, List.any_cons, hk, Bool.false_or]
      exact ih

theorem addVerbs_ok : ∀ (r : Resource) (vs : List (String × Operation)),
    (vs.map (·.1)).Nodup →
    (∀ v ∈ vs.map (·.1), gMem r.operations v = false) →
    ∃ r2, addVerbs r vs = .ok r2 ∧ r2.name = r.name ∧
      r2.operations = r.operations ++ vs
  | r, [], _, _ => ⟨r, rfl, rfl, by simp⟩
  | r, (verb, v) :: rest, hnd, habs => by
    rw [addVerbs]
    have hv : gMem r.operations verb = false :=
      habs verb (by simp)
    rw [find?_isSome_eq_gMem, hv, if_neg (by simp)]
    have hnd2 : (rest.map (·.1)).Nodup := (List.nodup_cons.mp hnd).2
    have hver : verb ∉ rest.map (·.1) := (List.nodup_cons.mp hnd).1
    have habs2 : ∀ w ∈ rest.map (·.1),
        gMem ({ r with operations := r.operations ++ [(verb, v)] } :
          Resource).operations w = false := by
      intro w hw
      show gMem (r.operations ++ [(verb, v)]) w = false
      rw [gMem_append]
      have h1 : gMem r.operations w = false :=
        habs w (List.mem_cons_of_mem _ hw)
      have h2 : gMem [(verb, v)] w = false := by
        simp only [gMem, List.any_cons, List.any_nil, Bool.or_false]
        have : verb ≠ w := fun hc => hver (hc ▸ hw)
        simp [this]
      rw [h1, h2]
      rfl
    obtain ⟨r2, h1, h2, h3⟩ := addVerbs_ok _ rest hnd2 habs2
    refine ⟨r2, h1, h2, ?_⟩
    rw [h3]
    simp

theorem addVerbs_error : ∀ (r : Resource) (vs : List (String × Operation)),
    (∃ v ∈ vs.map (·.1), gMem r.operations v = true) →
    ∃ e, addVerbs r vs = .error e
  | _, [], h => by
    obtain ⟨v, hv, _⟩ := h
    exact absurd hv (List.not_mem_nil v)
  | r, (verb, v) :: rest, h => by
    rw [addVerbs, find?_isSome_eq_gMem]
    cases hm : gMem r.operations verb with
    | true =>
      rw [if_pos rfl]
      exact ⟨.duplicateOperation r.name verb, rfl⟩
    | false =>
      rw [if_neg (by simp)]
      obtain ⟨w, hw, hmem⟩ := h
      rcases List.mem_cons.mp hw with rfl | hw2
      · rw [hmem] at hm; cases hm
      · refine addVerbs_error _ rest ⟨w, hw2, ?_⟩
        show gMem (r.operations ++ [(verb, v)]) w = true
        rw [gMem_append, hmem]
        rfl

theorem resVerbs_gSet_self (d : List (String × Resource)) (k : String)
    (v : Resource) : resVerbs (gSet d k v) k = v.operations.map (·.1) := by
  unfold resVerbs
  rw [gGet?_gSet_self]

theorem resVerbs_gSet_ne (d : List (String × Resource)) (k k2 : String)
    (v : Resource) (h : k2 ≠ k) : resVerbs (gSet d k v) k2 = resVerbs d k2 := by
  unfold resVerbs
  rw [gGet?_gSet_ne _ _ _ _ h]

theorem registerPath_ok (resources : List (String × Resource)) (pe : PathEntry)
    (hnd : (peVerbs pe).Nodup)
    (hdisj : ∀ v ∈ peVerbs pe, v ∉ resVerbs resources (path_to_name pe.path)) :
    ∃ resources2, registerPath resources pe = .ok resources2 ∧
      ∀ n, resVerbs resources2 n =
        if n = path_to_name pe.path
        then resVerbs resources n ++ peVerbs pe
        else resVerbs resources n := by
  unfold registerPath
  have hops : (r0Of resources (path_to_name pe.path)).operations.map (·.1) =
      resVerbs resources (path_to_name pe.path) := by
    unfold r0Of resVerbs
    cases gGet? resources (path_to_name pe.path) <;> rfl
  have habs : ∀ v ∈ peVerbs pe,
      gMem (r0Of resources (path_to_name pe.path)).operations v = false := by
    intro v hv
    cases hm : gMem (r0Of resources (path_to_name pe.path)).operations v with
    | false => rfl
    | true =>
      exact absurd (hops ▸ (gMem_iff _ v).mp hm) (hdisj v hv)
  obtain ⟨r2, h1, h2, h3⟩ := addVerbs_ok _ pe.operations hnd habs
  rw [h1]
  refine ⟨gSet resources (path_to_name pe.path) r2, rfl, ?_⟩
  intro n
  by_cases hn : n = path_to_name pe.path
  · rw [if_pos hn, hn, resVerbs_gSet_self, h3, List.map_append, hops]
    rfl
  · rw [if_neg hn, resVerbs_gSet_ne _ _ _ _ hn]

theorem registerPath_error (resources : List (String × Resource))
    (pe : PathEntry)
    (hclash : ∃ v ∈ peVerbs pe, v ∈ resVerbs resources (path_to_name pe.path)) :
    ∃ e, registerPath resources pe = .error e := by
  unfold registerPath
  obtain ⟨v, hv, hmem⟩ := hclash
  have hops : (r0Of resources (path_to_name pe.path)).operations.map (·.1) =
      resVerbs resources (path_to_name pe.path) := by
    unfold r0Of resVerbs
    cases gGet? resources (path_to_name pe.path) <;> rfl
  obtain ⟨e, he⟩ := addVerbs_error _ pe.operations
    ⟨v, hv, (gMem_iff _ v).mpr (hops ▸ hmem)⟩
  rw [he]
  exact ⟨e, rfl⟩

/-- Compatibility of two path entries: if they derive the same
resource name, they share no verb. -/
def pathCompat (p q : PathEntry) : Prop :=
  path_to_name p.path = path_to_name q.path → ∀ v ∈ peVerbs p, v ∉ peVerbs q

theorem init_aux_error_iff :
    ∀ (paths : List PathEntry) (resources : List (String × Resource)),
      (∀ pe ∈ paths, (peVerbs pe).Nodup) →
      ((∃ e, init_resources_aux resources paths = .error e) ↔
        ¬ (List.Pairwise pathCompat paths ∧
          ∀ pe ∈ paths, ∀ v ∈ peVerbs pe,
            v ∉ resVerbs resources (path_to_name pe.path)))
  | [], resources, _ => by
    constructor
    · rintro ⟨e, he⟩
      cases he
    · intro h
      exact absurd ⟨List.Pairwise.nil, fun pe hpe => absurd hpe (by simp)⟩ h
  | pe :: rest, resources, hnd => by
    have hndpe : (peVerbs pe).Nodup := hnd pe (List.mem_cons_self _ _)
    have hndrest : ∀ q ∈ rest, (peVerbs q).Nodup :=
      fun q hq => hnd q (List.mem_cons_of_mem _ hq)
    by_cases hclash : ∃ v ∈ peVerbs pe,
        v ∈ resVerbs resources (path_to_name pe.path)
    · apply iff_of_true
      · obtain ⟨e, he⟩ := registerPath_error resources pe hclash
        rw [init_resources_aux, he]
        exact ⟨e, rfl⟩
      · rintro ⟨_, hacc⟩
        obtain ⟨v, hv1, hv2⟩ := hclash
        exact hacc pe (List.mem_cons_self _ _) v hv1 hv2
    · have hdisj : ∀ v ∈ peVerbs pe,
          v ∉ resVerbs resources (path_to_name pe.path) :=
        fun v hv hmem => hclash ⟨v, hv, hmem⟩
      obtain ⟨resources2, hreg, hres⟩ := registerPath_ok resources pe hndpe hdisj
      have hstep : init_resources_aux resources (pe :: rest) =
          init_resources_aux resources2 rest := by
        rw [init_resources_aux, hreg]
      rw [hstep, init_aux_error_iff rest resources2 hndrest]
      apply not_congr
      constructor
      · rintro ⟨hpw2, hacc2⟩
        refine ⟨List.pairwise_cons.mpr ⟨?_, hpw2⟩, ?_⟩
        · intro q hq hname v hv hvq
          have h1 := hacc2 q hq v hvq
          rw [hres (path_to_name q.path), if_pos hname.symm] at h1
          exact h1 (List.mem_append_right _ hv)
        · intro q hq v hv
          rcases List.mem_cons.mp hq with rfl | hq2
          · exact hdisj v hv
          · intro hmem
            have h1 := hacc2 q hq2 v hv
            rw [hres (path_to_name q.path)] at h1
            by_cases hn : path_to_name q.path = path_to_name pe.path
            · rw [if_pos hn] at h1
              exact h1 (List.mem_append_left _ hmem)
            · rw [if_neg hn] at h1
              exact h1 hmem
      · rintro ⟨hpwcons, haccall⟩
        obtain ⟨hhead, hpw2⟩ := List.pairwise_cons.mp hpwcons
        refine ⟨hpw2, ?_⟩
        intro q hq v hv
        rw [hres (path_to_name q.path)]
        by_cases hn : path_to_name q.path = path_to_name pe.path
        · rw [if_pos hn]
          intro hmem
          rcases List.mem_append.mp hmem with hmem1 | hmem2
          · exact haccall q (List.mem_cons_of_mem _ hq) v hv (by
              rw [hn] at hmem1 ⊢
              exact hmem1)
          · exact hhead q hq hn.symm v hmem2 hv
        · rw [if_neg hn]
          exact haccall q (List.mem_cons_of_mem _ hq) v hv

/-- C8: indexing a document raises the duplicate-operation error iff
two of its path entries derive the same resource name and share a
verb; on duplicate-free documents `init_resources` never raises.  (The
hypothesis — each path's own verb table is duplicate-free — holds by
construction, the verbs being keys of a Python dict.)  No resource
table is returned in the error case, so no output is produced. -/
theorem c8_duplicate_operation_fatal :
    ∀ paths : List PathEntry,
      (∀ pe ∈ paths, (peVerbs pe).Nodup) →
      ((∃ e, init_resources paths = .error e) ↔
        ¬ List.Pairwise pathCompat paths) := by
  intro paths hnd
  unfold init_resources
  rw [init_aux_error_iff paths [] hnd]
  constructor
  · intro h hpw
    refine h ⟨hpw, fun pe _ v _ hv => ?_⟩
    simp [resVerbs, gGet?] at hv
  · rintro h ⟨hpw, _⟩
    exact h hpw

def c8Op : Operation :=
  { verb := "get", path := "/vcenter/vm", basePath := "", parameters := [] }

def c8Path1 : PathEntry :=
  { path := "/vcenter/vm", operations := [("get", c8Op)] }

/-- A distinct path template that collides onto the same resource name
through the dropped `data` segment. -/
def c8Path2 : PathEntry :=
  { path := "/data/vcenter/vm", operations := [("get", c8Op)] }

/-- Witness instantiating C8: the two colliding paths both define
`get`, so indexing them errors; the error is the duplicate-operation
error for resource `vcenter_vm`, verb `get`. -/
theorem c8_duplicate_operation_fatal_witness :
    ((∃ e, init_resources [c8Path1, c8Path2] = .error e) ↔
      ¬ List.Pairwise pathCompat [c8Path1, c8Path2]) ∧
      init_resources [c8Path1, c8Path2] =
        .error (.duplicateOperation "vcenter_vm" "get") :=
  ⟨c8_duplicate_operation_fatal [c8Path1, c8Path2] (by decide), rfl⟩

/-! ## Claim C9: merge idempotence -/

/-- Feeding a merged parameter list back in as the per-operation views
with identical `operationIds` bookkeeping: each operation sees exactly
the merged descriptors whose recorded `operationIds` mention it. -/
def feedbackViews (M : List Param) (views : List (String × List Param)) :
    List (String × List Param) :=
  views.map (fun ov =>
    (ov.1, M.filter (fun p => (p.operationIds.getD []).contains ov.1)))

def c9Pa1 : Param := Param.mk { name := "a", description := some "x" }

def c9Pa2 : Param := Param.mk { name := "a", description := some "yz" }

def c9Views : List (String × List Param) := [("get", [c9Pa1, c9Pa2])]

def c9Order : List String := ["get"]

/-- C9 counterexample: when one operation's view holds two descriptors
with the same name (here `a`, with differing descriptions), the first
merge records the operation id once per occurrence
(`operationIds = ["get", "get"]`); re-merging the merged list, where
the name now occurs once per view, records it once, so the second
merge's output differs from the first — the merge is not idempotent. -/
theorem c9_merge_idempotence_counterexample :
    (finalizeParams (mergeViews (feedbackViews
        (finalizeParams (mergeViews c9Views) c9Order) c9Views)) c9Order).map
      Param.operationIds ≠
    (finalizeParams (mergeViews c9Views) c9Order).map Param.operationIds := by
  decide

theorem Param.mk_fields : ∀ p : Param, Param.mk (Param.fields p) = p
  | .mk _ => rfl

theorem strLt_sort_eq_of_perm {l1 l2 : List String} (h : List.Perm l1 l2) :
    pySort strLt l1 = pySort strLt l2 :=
  eq_of_perm_of_sortedB strLt (fun _ _ hab hba => strLt_conn hab hba)
    (((pySort_perm strLt l1).trans h).trans (pySort_perm strLt l2).symm)
    (pySort_sortedB strLt (fun _ _ _ hab hbc => strLt_trans hab hbc)
      (fun _ _ hh => strLt_asymm hh) l1)
    (pySort_sortedB strLt (fun _ _ _ hab hbc => strLt_trans hab hbc)
      (fun _ _ hh => strLt_asymm hh) l2)

theorem strLt_sort_self {l : List String} (h : SortedB strLt l) :
    pySort strLt l = l :=
  eq_of_perm_of_sortedB strLt (fun _ _ hab hba => strLt_conn hab hba)
    (pySort_perm strLt l)
    (pySort_sortedB strLt (fun _ _ _ hab hbc => strLt_trans hab hbc)
      (fun _ _ hh => strLt_asymm hh) l) h

theorem pySort_single (lt : α → α → Bool) (x : α) : pySort lt [x] = [x] := rfl

/-- A fold of the merge body over descriptors none of which is named
`k` leaves the entry at `k` unchanged. -/
theorem foldl_mergeOne_get_not_mem (op : String) :
    ∀ (vs : List Param) (acc : List (String × Param)) (k : String),
      k ∉ vs.map Param.name →
      dGet? (vs.foldl (fun a p => mergeOne a op p) acc) k = dGet? acc k
  | [], _, _, _ => rfl
  | p :: vs, acc, k, h => by
    rw [List.foldl_cons]
    have h1 : k ∉ vs.map Param.name := by
      intro hm
      exact h (by rw [List.map_cons]; exact List.mem_cons_of_mem _ hm)
    have h2 : k ≠ p.name := by
      intro he
      exact h (by rw [List.map_cons, he]; exact List.mem_cons_self _ _)
    rw [foldl_mergeOne_get_not_mem op vs _ k h1, mergeOne_dGet?_ne _ _ _ h2]

/-- When the processed descriptors have pairwise distinct names, the
entry at a processed name is one `mergeStep` against the entry the
accumulator held before the fold. -/
theorem foldl_mergeOne_get_mem (op : String) :
    ∀ (vs : List Param) (acc : List (String × Param)) (q : Param),
      (vs.map Param.name).Nodup → q ∈ vs →
      dGet? (vs.foldl (fun a p => mergeOne a op p) acc) q.name =
        some (mergeStep (dGet? acc q.name) op q)
  | [], _, q, _, hq => absurd hq (List.not_mem_nil q)
  | p :: vs, acc, q, hnd, hq => by
    rw [List.foldl_cons]
    rw [List.map_cons] at hnd
    rcases List.mem_cons.mp hq with rfl | hq2
    · have hpn : q.name ∉ vs.map Param.name := (List.nodup_cons.mp hnd).1
      rw [foldl_mergeOne_get_not_mem op vs _ q.name hpn, mergeOne_dGet?_self]
    · have hne : q.name ≠ p.name := by
        intro he
        exact (List.nodup_cons.mp hnd).1
          (he ▸ List.mem_map.mpr ⟨q, hq2, rfl⟩)
      rw [foldl_mergeOne_get_mem op vs _ q (List.nodup_cons.mp hnd).2 hq2,
        mergeOne_dGet?_ne _ _ _ hne]

theorem processOp_get_not_mem (acc : List (String × Param)) (op : String)
    (view : List Param) (k : String) (h : k ∉ view.map Param.name) :
    dGet? (processOp acc op view) k = dGet? acc k := by
  unfold processOp
  apply foldl_mergeOne_get_not_mem
  intro hm
  obtain ⟨q, hq, he⟩ := List.mem_map.mp hm
  exact h (List.mem_map.mpr ⟨q, (pySort_perm byNameDesc view).mem_iff.mp hq, he⟩)

theorem processOp_get_mem (acc : List (String × Param)) (op : String)
    (view : List Param) (q : Param) (hnd : (view.map Param.name).Nodup)
    (hq : q ∈ view) :
    dGet? (processOp acc op view) q.name =
      some (mergeStep (dGet? acc q.name) op q) := by
  unfold processOp
  apply foldl_mergeOne_get_mem
  · exact (((pySort_perm byNameDesc view).map Param.name).nodup_iff).mpr hnd
  · exact (pySort_perm byNameDesc view).mem_iff.mpr hq

/-- Invariant of the merged entries' `operationIds`: a present,
non-empty, duplicate-free, sorted list of already-seen operation
identifiers. -/
def opIdsOK (done : List String) (m : Param) : Prop :=
  ∃ l, m.operationIds = some l ∧ l ≠ [] ∧ l.Nodup ∧ SortedB strLt l ∧
    ∀ x ∈ l, x ∈ done

theorem opIdsOK_mono {done : List String} (ext : List String) {m : Param}
    (h : opIdsOK done m) : opIdsOK (done ++ ext) m := by
  obtain ⟨l, h1, h2, h3, h4, h5⟩ := h
  exact ⟨l, h1, h2, h3, h4, fun x hx => List.mem_append_left _ (h5 x hx)⟩

theorem mergeStep_operationIds_none (op : String) (p : Param) :
    (mergeStep none op p).operationIds = some (pySort strLt [op]) := rfl

theorem mergeStep_operationIds_some (r : Param) (op : String) (p : Param) :
    (mergeStep (some r) op p).operationIds =
      some (pySort strLt ((r.operationIds.getD []) ++ [op])) := rfl

theorem mergeStep_opIdsOK_none (done : List String) (op : String) (p : Param) :
    opIdsOK (done ++ [op]) (mergeStep none op p) := by
  refine ⟨[op], ?_, by simp, List.nodup_singleton op,
    List.pairwise_singleton _ op, by simp⟩
  rw [mergeStep_operationIds_none, pySort_single]

theorem mergeStep_opIdsOK_some (done : List String) (op : String) (r p : Param)
    (hop : op ∉ done) (h : opIdsOK done r) :
    opIdsOK (done ++ [op]) (mergeStep (some r) op p) := by
  obtain ⟨l, h1, h2, h3, h4, h5⟩ := h
  refine ⟨pySort strLt (l ++ [op]), ?_, ?_, ?_, ?_, ?_⟩
  · rw [mergeStep_operationIds_some, h1]
    rfl
  · intro he
    have hp := pySort_perm strLt (l ++ [op])
    rw [he] at hp
    exact absurd hp.nil_eq (by simp)
  · refine ((pySort_perm strLt (l ++ [op])).nodup_iff).mpr ?_
    rw [List.nodup_append]
    refine ⟨h3, List.nodup_singleton op, ?_⟩
    intro x hx hx2
    rw [List.mem_singleton] at hx2
    exact hop (hx2 ▸ h5 x hx)
  · exact pySort_sortedB strLt (fun _ _ _ hab hbc => strLt_trans hab hbc)
      (fun _ _ hh => strLt_asymm hh) _
  · intro x hx
    rcases List.mem_append.mp ((pySort_perm strLt (l ++ [op])).mem_iff.mp hx)
      with h6 | h6
    · exact List.mem_append_left _ (h5 x h6)
    · exact List.mem_append_right _ h6

theorem processOp_opIdsOK (acc : List (String × Param)) (done : List String)
    (op : String) (hop : op ∉ done) (view : List Param)
    (hnd : (view.map Param.name).Nodup)
    (hacc : ∀ k m, dGet? acc k = some m → opIdsOK done m) :
    ∀ k m, dGet? (processOp acc op view) k = some m →
      opIdsOK (done ++ [op]) m := by
  intro k m hm
  by_cases hk : k ∈ view.map Param.name
  · obtain ⟨q, hq, hqn⟩ := List.mem_map.mp hk
    rw [← hqn] at hm
    rw [processOp_get_mem acc op view q hnd hq] at hm
    rw [← Option.some.inj hm]
    cases hst : dGet? acc q.name with
    | none => exact mergeStep_opIdsOK_none done op q
    | some r => exact mergeStep_opIdsOK_some done op r q hop (hacc _ r hst)
  · rw [processOp_get_not_mem acc op view k hk] at hm
    exact opIdsOK_mono [op] (hacc k m hm)

theorem foldl_processOp_opIdsOK :
    ∀ (views : List (String × List Param)) (acc : List (String × Param))
      (done : List String),
      (done ++ views.map (·.1)).Nodup →
      (∀ ov ∈ views, (ov.2.map Param.name).Nodup) →
      (∀ k m, dGet? acc k = some m → opIdsOK done m) →
      ∀ k m,
        dGet? (views.foldl (fun a ov => processOp a ov.1 ov.2) acc) k = some m →
        opIdsOK (done ++ views.map (·.1)) m
  | [], acc, done, _, _, hacc, k, m => by
    simp only [List.map_nil, List.append_nil, List.foldl_nil]
    exact hacc k m
  | ov :: views, acc, done, hnd, hviews, hacc, k, m => by
    rw [List.foldl_cons]
    rw [List.map_cons] at hnd
    have hop : ov.1 ∉ done := by
      rw [List.nodup_append] at hnd
      exact fun hmem => hnd.2.2 hmem (List.mem_cons_self _ _)
    intro hm
    have hstep := processOp_opIdsOK acc done ov.1 hop ov.2
      (hviews ov (List.mem_cons_self _ _)) hacc
    have hnd2 : ((done ++ [ov.1]) ++ views.map (·.1)).Nodup := by
      rw [List.append_assoc, List.singleton_append]
      exact hnd
    have hrec := foldl_processOp_opIdsOK views (processOp acc ov.1 ov.2)
      (done ++ [ov.1]) hnd2
      (fun o ho => hviews o (List.mem_cons_of_mem _ ho)) hstep k m hm
    rw [List.append_assoc, List.singleton_append] at hrec
    rw [List.map_cons]
    exact hrec

theorem mergeViews_opIdsOK (views : List (String × List Param))
    (h1 : (views.map (·.1)).Nodup)
    (h2 : ∀ ov ∈ views, (ov.2.map Param.name).Nodup) :
    ∀ k m, dGet? (mergeViews views) k = some m →
      opIdsOK (views.map (·.1)) m := by
  intro k m hm
  have := foldl_processOp_opIdsOK views [] [] (by simpa using h1) h2
    (fun k2 m2 hm2 => by
      exact absurd hm2 (by simp [dGet?, List.find?])) k m hm
  simpa using this

theorem sortedSet_mem (l : List String) (a : String) :
    a ∈ sortedSet l ↔ a ∈ l := by
  unfold sortedSet
  rw [(pySort_perm strLt (pyDedup l)).mem_iff, pyDedup_mem]

theorem sortedSet_congr (l1 l2 : List String) (hm : ∀ a, a ∈ l1 ↔ a ∈ l2) :
    sortedSet l1 = sortedSet l2 := by
  unfold sortedSet
  exact pySort_strLt_ext _ _ (pyDedup_nodup l1) (pyDedup_nodup l2)
    (fun a => by rw [pyDedup_mem, pyDedup_mem]; exact hm a)

theorem sortedSet_idem (l : List String) :
    sortedSet (sortedSet l) = sortedSet l :=
  sortedSet_congr _ _ (fun a => sortedSet_mem l a)

/-- Relation between an enum value and its value after any number of
self-concatenations in a re-merge: same membership (shape preserved,
multiplicities possibly blown up). -/
def enumRel : Option (List String) → Option (List String) → Prop
  | none, none => True
  | some e, some f => ∀ a, a ∈ f ↔ a ∈ e
  | _, _ => False

theorem enumRel_self_merge (e : Option (List String)) :
    enumRel e (enumMerge e e) := by
  cases e with
  | none => trivial
  | some el =>
    intro a
    show a ∈ el ++ el ↔ a ∈ el
    simp

theorem enumRel_merge (e f : Option (List String)) (h : enumRel e f) :
    enumRel e (enumMerge f e) := by
  cases e with
  | none =>
    cases f with
    | none => trivial
    | some s => exact h.elim
  | some el =>
    cases f with
    | none => exact h.elim
    | some s =>
      intro a
      show a ∈ s ++ el ↔ a ∈ el
      rw [List.mem_append]
      exact ⟨fun h2 => h2.elim (fun h3 => (h a).mp h3) id, Or.inr⟩

theorem descMerge_self (d : Option String) : descMerge d d = d := by
  cases d with
  | none => rfl
  | some s => simp [descMerge]

/-- What a re-merged accumulator entry looks like, relative to the
already-merged descriptor `q` it reproduces: all fields of `q`, except
that `enum` is membership-equivalent and `operationIds` holds the
processed prefix of the identifiers recorded on `q`. -/
def reMergeOK (done : List String) (q m : Param) : Prop :=
  ∃ f, enumRel q.enum f ∧
    m = Param.mk { q.fields with
      enum := f
      operationIds := some (pySort strLt (done.filter
        (fun op => (q.operationIds.getD []).contains op))) }

theorem mergeStep_fresh_eq (op : String) (q : Param) :
    mergeStep none op q = Param.mk { q.fields with
      description := descMerge q.description q.description
      enum := enumMerge q.enum q.enum
      operationIds := some (pySort strLt [op]) } := rfl

theorem mergeStep_stored_eq (r : Param) (op : String) (q : Param) :
    mergeStep (some r) op q = Param.mk { r.fields with
      description := descMerge r.description q.description
      enum := enumMerge r.enum q.enum
      operationIds := some (pySort strLt ((r.operationIds.getD []) ++ [op])) } :=
  rfl

theorem reMergeOK_fresh (done : List String) (op : String) (q : Param)
    (hcont : ((q.operationIds.getD []).contains op) = true)
    (hdone : done.filter (fun o => (q.operationIds.getD []).contains o) = []) :
    reMergeOK (done ++ [op]) q (mergeStep none op q) := by
  refine ⟨enumMerge q.enum q.enum, enumRel_self_merge q.enum, ?_⟩
  rw [mergeStep_fresh_eq, descMerge_self]
  have hmem : op ∈ q.operationIds.getD [] := by simpa using hcont
  have hfil : (done ++ [op]).filter
      (fun o => (q.operationIds.getD []).contains o) = [op] := by
    rw [List.filter_append, hdone]
    simp [hmem]
  rw [hfil]
  rfl

theorem reMergeOK_stored (done : List String) (op : String) (q m : Param)
    (h : reMergeOK done q m)
    (hcont : ((q.operationIds.getD []).contains op) = true) :
    reMergeOK (done ++ [op]) q (mergeStep (some m) op q) := by
  obtain ⟨f, hf, hm⟩ := h
  refine ⟨enumMerge f q.enum, enumRel_merge q.enum f hf, ?_⟩
  subst hm
  show Param.mk { q.fields with
      description := descMerge q.description q.description
      enum := enumMerge f q.enum
      operationIds := some (pySort strLt ((pySort strLt (done.filter
        (fun o => (q.operationIds.getD []).contains o))) ++ [op])) } = _
  rw [descMerge_self]
  have hmem : op ∈ q.operationIds.getD [] := by simpa using hcont
  have hfil : (done ++ [op]).filter
      (fun o => (q.operationIds.getD []).contains o) =
      done.filter (fun o => (q.operationIds.getD []).contains o) ++ [op] := by
    rw [List.filter_append]
    simp [hmem]
  rw [hfil, strLt_sort_eq_of_perm (List.Perm.append_right [op]
    (pySort_perm strLt (done.filter
      (fun o => (q.operationIds.getD []).contains o))))]
  rfl

theorem dGet?_map_post (f : Param → Param) :
    ∀ (d : List (String × Param)) (k : String),
      dGet? (d.map (fun kv => (kv.1, f kv.2))) k = (dGet? d k).map f
  | [], _ => rfl
  | kv :: rest, k => by
    rw [List.map_cons]
    cases hk : kv.1 == k with
    | true =>
      rw [@dGet?_cons_pos (kv.1, f kv.2)
        (rest.map (fun kv => (kv.1, f kv.2))) k hk, dGet?_cons_pos hk]
      rfl
    | false =>
      rw [@dGet?_cons_neg (kv.1, f kv.2)
        (rest.map (fun kv => (kv.1, f kv.2))) k hk, dGet?_cons_neg hk]
      exact dGet?_map_post f rest k

theorem dGet?_eq_some_iff :
    ∀ (d : List (String × Param)), (dKeys d).Nodup →
      ∀ (k : String) (v : Param), dGet? d k = some v ↔ (k, v) ∈ d
  | [], _, k, v => by
    constructor
    · intro h
      exact absurd h (by simp [dGet?, List.find?])
    · intro h
      exact absurd h (List.not_mem_nil _)
  | kv :: rest, hnd, k, v => by
    have hnd2 : (dKeys rest).Nodup := (List.nodup_cons.mp hnd).2
    constructor
    · intro h
      obtain ⟨kv2, hkv2, h1, h2⟩ := dGet?_mem _ k v h
      cases kv2 with
      | mk a b =>
        cases h1
        cases h2
        exact hkv2
    · intro h
      rcases List.mem_cons.mp h with he | hmem
      · rw [← he]
        exact dGet?_cons_pos (by simp)
      · have hne : (kv.1 == k) = false := by
          have h1 : k ∈ dKeys rest := List.mem_map.mpr ⟨(k, v), hmem, rfl⟩
          have h2 : kv.1 ∉ dKeys rest := (List.nodup_cons.mp hnd).1
          cases hb : kv.1 == k with
          | false => rfl
          | true => exact absurd ((beq_iff_eq.mp hb) ▸ h1) h2
        rw [dGet?_cons_neg hne]
        exact (dGet?_eq_some_iff rest hnd2 k v).mpr hmem

/-- Two key-unique dicts with the same lookup function hold the same
entries (as multisets). -/
theorem dict_perm_of_get_eq (d e : List (String × Param))
    (hd : (dKeys d).Nodup) (he : (dKeys e).Nodup)
    (h : ∀ k, dGet? d k = dGet? e k) : List.Perm d e := by
  refine (List.perm_ext_iff_of_nodup (List.Nodup.of_map _ hd)
    (List.Nodup.of_map _ he)).mpr ?_
  intro kv
  constructor
  · intro hkv
    have h1 : dGet? d kv.1 = some kv.2 :=
      (dGet?_eq_some_iff d hd kv.1 kv.2).mpr (by simpa using hkv)
    rw [h kv.1] at h1
    have := (dGet?_eq_some_iff e he kv.1 kv.2).mp h1
    simpa using this
  · intro hkv
    have h1 : dGet? e kv.1 = some kv.2 :=
      (dGet?_eq_some_iff e he kv.1 kv.2).mpr (by simpa using hkv)
    rw [← h kv.1] at h1
    have := (dGet?_eq_some_iff d hd kv.1 kv.2).mp h1
    simpa using this

/-- In a key-unique dict whose entries are named after their keys, a
value is present iff looking up its name returns it. -/
theorem mem_dValues_iff_dGet? (d : List (String × Param))
    (hnd : (dKeys d).Nodup) (hkey : ∀ kv ∈ d, Param.name kv.2 = kv.1)
    (q : Param) : q ∈ dValues d ↔ dGet? d q.name = some q := by
  rw [dGet?_eq_some_iff d hnd]
  constructor
  · intro h
    obtain ⟨kv, hkv, he⟩ := List.mem_map.mp h
    have hn := hkey kv hkv
    cases kv with
    | mk a b =>
      cases he
      have hn2 : Param.name b = a := hn
      rw [hn2]
      exact hkv
  · intro h
    exact List.mem_map.mpr ⟨(q.name, q), h, rfl⟩

/-- Two name-sorted descriptor lists of the same multiset with
duplicate-free names are equal (no global antisymmetry of the
comparator is needed: equal names cannot both occur). -/
theorem eq_of_perm_sortedNames :
    ∀ (l l2 : List Param), List.Perm l l2 → SortedB paramNameLt l →
      SortedB paramNameLt l2 → (l.map Param.name).Nodup → l = l2
  | [], l2, hp, _, _, _ => hp.nil_eq
  | p :: t, l2, hp, h1, h2, hnd => by
    cases l2 with
    | nil => exact absurd hp (by simp)
    | cons p2 t2 =>
      rw [List.map_cons] at hnd
      have hpe : p = p2 := by
        rcases List.mem_cons.mp (hp.mem_iff.mp (List.mem_cons_self p t)) with
          he | hmem
        · exact he
        · rcases List.mem_cons.mp
            (hp.symm.mem_iff.mp (List.mem_cons_self p2 t2)) with he2 | hmem2
          · exact he2.symm
          · have ha : paramNameLt p p2 = false :=
              (List.pairwise_cons.mp h2).1 p hmem
            have hb : paramNameLt p2 p = false :=
              (List.pairwise_cons.mp h1).1 p2 hmem2
            have hne : p.name = p2.name := strLt_conn ha hb
            exact absurd (by
              rw [hne]
              exact List.mem_map.mpr ⟨p2, hmem2, rfl⟩)
              (List.nodup_cons.mp hnd).1
      subst hpe
      have := eq_of_perm_sortedNames t t2 hp.cons_inv
        (List.pairwise_cons.mp h1).2 (List.pairwise_cons.mp h2).2
        (List.nodup_cons.mp hnd).2
      rw [this]

/-- Invariant of the re-merge (second run of the merge loop on the fed
back views), after processing the operation identifiers in `done`:
the accumulator holds an entry exactly for the merged descriptors some
processed operation references, and each entry reproduces its
descriptor up to `reMergeOK`. -/
def FInv (Mdict : List (String × Param)) (done : List String)
    (acc : List (String × Param)) : Prop :=
  ∀ k : String,
    (∀ m, dGet? acc k = some m → ∃ q, dGet? Mdict k = some q ∧
      done.filter (fun op => (q.operationIds.getD []).contains op) ≠ [] ∧
      reMergeOK done q m) ∧
    (∀ q, dGet? Mdict k = some q →
      done.filter (fun op => (q.operationIds.getD []).contains op) ≠ [] →
      ∃ m, dGet? acc k = some m)

theorem feedback_step (Mdict : List (String × Param)) (M : List Param)
    (hM : ∀ q : Param, q ∈ M ↔ dGet? Mdict q.name = some q)
    (hkey : ∀ k q, dGet? Mdict k = some q → q.name = k)
    (hMnames : (M.map Param.name).Nodup)
    (done : List String) (op : String) (acc : List (String × Param))
    (hinv : FInv Mdict done acc) :
    FInv Mdict (done ++ [op])
      (processOp acc op
        (M.filter (fun p => (p.operationIds.getD []).contains op))) := by
  intro k
  have hfnd : ((M.filter
      (fun p => (p.operationIds.getD []).contains op)).map Param.name).Nodup :=
    hMnames.sublist ((List.filter_sublist M).map Param.name)
  by_cases hk : k ∈ (M.filter
      (fun p => (p.operationIds.getD []).contains op)).map Param.name
  · obtain ⟨q, hqf, hqn⟩ := List.mem_map.mp hk
    have hqM : q ∈ M := (List.mem_filter.mp hqf).1
    have hqC : ((q.operationIds.getD []).contains op) = true :=
      (List.mem_filter.mp hqf).2
    have hget := processOp_get_mem acc op _ q hfnd hqf
    have hMq : dGet? Mdict k = some q := by
      rw [← hqn]
      exact (hM q).mp hqM
    constructor
    · intro m hm
      rw [← hqn] at hm
      rw [hget] at hm
      refine ⟨q, hMq, ?_, ?_⟩
      · apply List.ne_nil_of_mem (a := op)
        exact List.mem_filter.mpr
          ⟨List.mem_append_right _ (List.mem_singleton.mpr rfl), hqC⟩
      · rw [← Option.some.inj hm]
        cases hst : dGet? acc q.name with
        | none =>
          have hfil : done.filter
              (fun o => (q.operationIds.getD []).contains o) = [] := by
            by_contra hcon
            obtain ⟨m2, hm2⟩ := (hinv q.name).2 q (by rw [hqn]; exact hMq) hcon
            rw [hst] at hm2
            cases hm2
          exact reMergeOK_fresh done op q hqC hfil
        | some m0 =>
          obtain ⟨q2, hq2, hfil2, hrm⟩ := (hinv q.name).1 m0 hst
          have hqq : q2 = q := by
            rw [hqn] at hq2
            rw [hMq] at hq2
            exact (Option.some.inj hq2).symm
          subst hqq
          exact reMergeOK_stored done op q2 m0 hrm hqC
    · intro q2 hq2 hfil2
      refine ⟨mergeStep (dGet? acc q.name) op q, ?_⟩
      rw [← hqn]
      exact hget
  · have hun := processOp_get_not_mem acc op _ k hk
    constructor
    · intro m hm
      rw [hun] at hm
      obtain ⟨q, hq, hfil, hrm⟩ := (hinv k).1 m hm
      have hqn : q.name = k := hkey k q hq
      have hCfalse : ((q.operationIds.getD []).contains op) = false := by
        cases hc : ((q.operationIds.getD []).contains op) with
        | false => rfl
        | true =>
          have hqM : q ∈ M := (hM q).mpr (by rw [hqn]; exact hq)
          exact absurd
            (List.mem_map.mpr ⟨q, List.mem_filter.mpr ⟨hqM, hc⟩, hqn⟩) hk
      have h0 : List.filter
          (fun o => (q.operationIds.getD []).contains o) [op] = [] := by
        simp only [List.filter_cons, List.filter_nil, hCfalse]
        rw [if_neg (by simp)]
      refine ⟨q, hq, ?_, ?_⟩
      · rw [List.filter_append, h0, List.append_nil]
        exact hfil
      · obtain ⟨f, hf, hmEq⟩ := hrm
        refine ⟨f, hf, ?_⟩
        rw [hmEq, List.filter_append, h0, List.append_nil]
    · intro q hq hfil
      have hqn : q.name = k := hkey k q hq
      have hCfalse : ((q.operationIds.getD []).contains op) = false := by
        cases hc : ((q.operationIds.getD []).contains op) with
        | false => rfl
        | true =>
          have hqM : q ∈ M := (hM q).mpr (by rw [hqn]; exact hq)
          exact absurd
            (List.mem_map.mpr ⟨q, List.mem_filter.mpr ⟨hqM, hc⟩, hqn⟩) hk
      have h0 : List.filter
          (fun o => (q.operationIds.getD []).contains o) [op] = [] := by
        simp only [List.filter_cons, List.filter_nil, hCfalse]
        rw [if_neg (by simp)]
      rw [List.filter_append, h0, List.append_nil] at hfil
      obtain ⟨m, hm⟩ := (hinv k).2 q hq hfil
      refine ⟨m, ?_⟩
      rw [hun]
      exact hm

theorem feedback_fold (Mdict : List (String × Param)) (M : List Param)
    (hM : ∀ q : Param, q ∈ M ↔ dGet? Mdict q.name = some q)
    (hkey : ∀ k q, dGet? Mdict k = some q → q.name = k)
    (hMnames : (M.map Param.name).Nodup) :
    ∀ (ops : List String) (done : List String) (acc : List (String × Param)),
      FInv Mdict done acc →
      FInv Mdict (done ++ ops)
        (ops.foldl (fun a op => processOp a op
          (M.filter (fun p => (p.operationIds.getD []).contains op))) acc)
  | [], done, acc, h => by simpa using h
  | op :: ops, done, acc, h => by
    rw [List.foldl_cons]
    have := feedback_fold Mdict M hM hkey hMnames ops (done ++ [op]) _
      (feedback_step Mdict M hM hkey hMnames done op acc h)
    rw [List.append_assoc, List.singleton_append] at this
    exact this

theorem mergeViews_feedback (M : List Param)
    (views : List (String × List Param)) :
    mergeViews (feedbackViews M views) =
      (views.map (·.1)).foldl (fun a op => processOp a op
        (M.filter (fun p => (p.operationIds.getD []).contains op))) [] := by
  unfold mergeViews feedbackViews
  rw [List.foldl_map, List.foldl_map]

theorem applyRequired_enum (p : Param) : (applyRequired p).enum = p.enum := by
  unfold applyRequired
  by_cases h : reqTruthy p.required = true
  · rw [if_pos h]
    cases p.description <;> rfl
  · rw [if_neg h]

theorem applyRequired_operationIds (p : Param) :
    (applyRequired p).operationIds = p.operationIds := by
  unfold applyRequired
  by_cases h : reqTruthy p.required = true
  · rw [if_pos h]
    cases p.description <;> rfl
  · rw [if_neg h]

theorem postprocessParam_operationIds (p : Param) :
    (postprocessParam p).operationIds = p.operationIds := by
  unfold postprocessParam
  rw [applyRequired_operationIds, collapseEnum_operationIds]

/-- After the post-loop rewriting no descriptor is still truthily
required. -/
theorem postprocess_req_false (p : Param) :
    reqTruthy (postprocessParam p).required = false := by
  unfold postprocessParam applyRequired
  by_cases h : reqTruthy (collapseEnum p).required = true
  · rw [if_pos h]
    cases (collapseEnum p).description <;> rfl
  · rw [if_neg h]
    cases hr : reqTruthy (collapseEnum p).required with
    | false => rfl
    | true => exact absurd hr h

theorem applyRequired_id (p : Param) (h : reqTruthy p.required = false) :
    applyRequired p = p := by
  unfold applyRequired
  rw [if_neg (boolNotTrue h)]

theorem collapseEnum_id (p : Param) (h : (p.enum.getD []).isEmpty = true) :
    collapseEnum p = p := by
  unfold collapseEnum
  rw [if_pos h]

theorem collapseEnum_expand (p : Param) (h : (p.enum.getD []).isEmpty = false) :
    collapseEnum p = Param.mk { p.fields with
      enum := some (sortedSet (p.enum.getD [])) } := by
  unfold collapseEnum
  rw [if_neg (boolNotTrue h)]

theorem collapseEnum_enum (p : Param) :
    (collapseEnum p).enum = if (p.enum.getD []).isEmpty then p.enum
      else some (sortedSet (p.enum.getD [])) := by
  by_cases h : (p.enum.getD []).isEmpty = true
  · rw [collapseEnum_id p h, if_pos h]
  · have h2 : (p.enum.getD []).isEmpty = false := by
      cases hb : (p.enum.getD []).isEmpty with
      | false => rfl
      | true => exact absurd hb h
    rw [collapseEnum_expand p h2, if_neg h]
    rfl

/-- A non-empty enum surviving the post-loop rewriting is a fixed
point of `sorted(set(...))`. -/
theorem postprocess_enum_stable (p : Param) (e : List String)
    (he : (postprocessParam p).enum = some e) (hne : e ≠ []) :
    sortedSet e = e := by
  have h1 : (postprocessParam p).enum = (collapseEnum p).enum := by
    unfold postprocessParam
    rw [applyRequired_enum]
  rw [h1, collapseEnum_enum] at he
  by_cases h : (p.enum.getD []).isEmpty = true
  · rw [if_pos h] at he
    rw [he] at h
    exact absurd (by simpa using h) hne
  · rw [if_neg h] at he
    rw [(Option.some.inj he).symm, sortedSet_idem]

theorem ParamF.update_eq_self (F : ParamF Param) (e o : Option (List String))
    (he : F.enum = e) (ho : F.operationIds = o) :
    ({ F with enum := e, operationIds := o } : ParamF Param) = F := by
  cases F
  cases he
  cases ho
  rfl

/-- Post-processing a re-merged accumulator entry reproduces the
already-post-processed descriptor it was re-merged from. -/
theorem post_reMerged_eq (order l : List String) (q m2 : Param)
    (hord : order.Nodup)
    (hreq : reqTruthy q.required = false)
    (henum : ∀ e, q.enum = some e → e ≠ [] → sortedSet e = e)
    (hqop : q.operationIds = some l)
    (hlnd : l.Nodup) (hlsort : SortedB strLt l) (hlsub : ∀ x ∈ l, x ∈ order)
    (hrm : reMergeOK order q m2) :
    postprocessParam m2 = q := by
  obtain ⟨f, hf, hm⟩ := hrm
  have hfil : pySort strLt (order.filter
      (fun op => (q.operationIds.getD []).contains op)) = l := by
    rw [hqop]
    show pySort strLt (order.filter (fun op => l.contains op)) = l
    have hperm : List.Perm (order.filter (fun op => l.contains op)) l := by
      refine (List.perm_ext_iff_of_nodup (hord.filter _) hlnd).mpr ?_
      intro a
      rw [List.mem_filter]
      constructor
      · rintro ⟨_, hc⟩
        simpa using hc
      · intro ha
        exact ⟨hlsub a ha, by simpa using ha⟩
    rw [strLt_sort_eq_of_perm hperm, strLt_sort_self hlsort]
  rw [hfil] at hm
  subst hm
  cases hqe : q.enum with
  | none =>
    cases f with
    | some s =>
      rw [hqe] at hf
      exact hf.elim
    | none =>
      unfold postprocessParam
      rw [collapseEnum_id _ (by rfl), applyRequired_id _ (by exact hreq)]
      rw [ParamF.update_eq_self q.fields none (some l) hqe hqop]
      exact Param.mk_fields q
  | some e =>
    cases f with
    | none =>
      rw [hqe] at hf
      exact hf.elim
    | some s =>
      rw [hqe] at hf
      have hf2 : ∀ a, a ∈ s ↔ a ∈ e := hf
      by_cases hee : e = []
      · subst hee
        have hs : s = [] := by
          rw [List.eq_nil_iff_forall_not_mem]
          intro a ha
          exact (List.not_mem_nil a) ((hf2 a).mp ha)
        subst hs
        unfold postprocessParam
        rw [collapseEnum_id _ (by rfl), applyRequired_id _ (by exact hreq)]
        rw [ParamF.update_eq_self q.fields (some []) (some l) hqe hqop]
        exact Param.mk_fields q
      · have hsne : s ≠ [] := by
          intro hs0
          apply hee
          rw [List.eq_nil_iff_forall_not_mem]
          intro a ha
          exact absurd ((hf2 a).mpr ha) (by
            rw [hs0]
            exact List.not_mem_nil a)
        have hsb : s.isEmpty = false := by
          cases s with
          | nil => exact absurd rfl hsne
          | cons a t => rfl
        unfold postprocessParam
        rw [collapseEnum_expand _ (by exact hsb)]
        show applyRequired (Param.mk { q.fields with
          enum := some (sortedSet s), operationIds := some l }) = q
        rw [applyRequired_id _ (by exact hreq)]
        rw [sortedSet_congr s e hf2, henum e hqe hee]
        rw [ParamF.update_eq_self q.fields (some e) (some l) hqe hqop]
        exact Param.mk_fields q

/-- The post-loop map of `finalizeParams`. -/
def postDict (d : List (String × Param)) : List (String × Param) :=
  d.map (fun kv => (kv.1, postprocessParam kv.2))

/-- The final accumulator of `parameters()`: post-processed entries
with the synthetic `state` entry assigned. -/
def finalDict (d : List (String × Param)) (order : List String) :
    List (String × Param) :=
  dSet (postDict d) "state" (stateParam order)

theorem finalizeParams_eq_dict (d : List (String × Param))
    (order : List String) :
    finalizeParams d order = pySort paramNameLt (dValues (finalDict d order)) :=
  rfl

theorem dKeys_postDict (d : List (String × Param)) :
    dKeys (postDict d) = dKeys d := by
  unfold postDict dKeys
  rw [List.map_map]
  exact List.map_congr_left (fun kv _ => rfl)

/-- Re-running the merge loop over the finished parameter list — each
operation fed the finished descriptors whose `operationIds` mention it
— reproduces the finished list, for any accumulator dict whose entries
carry well-formed `operationIds` over a duplicate-free identifier
order. -/
theorem remerge_eq (D : List (String × Param)) (order : List String)
    (hord : order.Nodup)
    (hDnd : (dKeys D).Nodup)
    (hDkey : ∀ kv ∈ D, Param.name kv.2 = kv.1)
    (hOK : ∀ k m, dGet? D k = some m → opIdsOK order m) :
    finalizeParams
      (order.foldl (fun a op => processOp a op
        ((finalizeParams D order).filter
          (fun p => (p.operationIds.getD []).contains op))) [])
      order = finalizeParams D order := by
  have hpostkey : ∀ kv ∈ postDict D, Param.name kv.2 = kv.1 :=
    (post_map_facts D hDkey).1
  have hpostkeys : dKeys (postDict D) = dKeys D := dKeys_postDict D
  have hMdictnd : (dKeys (finalDict D order)).Nodup := by
    unfold finalDict
    refine dKeys_nodup_dSet _ _ _ ?_
    rw [hpostkeys]
    exact hDnd
  have hMdictkey : ∀ kv ∈ finalDict D order, Param.name kv.2 = kv.1 := by
    unfold finalDict
    exact dSet_name_key _ _ _ hpostkey rfl
  have hMget : ∀ (k : String) (q : Param),
      dGet? (finalDict D order) k = some q → q.name = k :=
    fun k q h => dGet?_name _ k q hMdictkey h
  have hMmem : ∀ q : Param, q ∈ finalizeParams D order ↔
      dGet? (finalDict D order) q.name = some q := by
    intro q
    rw [finalizeParams_eq_dict,
      (pySort_perm paramNameLt (dValues (finalDict D order))).mem_iff]
    exact mem_dValues_iff_dGet? _ hMdictnd hMdictkey q
  have hMnames : ((finalizeParams D order).map Param.name).Nodup := by
    rw [finalizeParams_eq_dict,
      ((pySort_perm paramNameLt (dValues (finalDict D order))).map
        Param.name).nodup_iff,
      dValues_names _ hMdictkey]
    exact hMdictnd
  have hinv0 : FInv (finalDict D order) [] [] := by
    intro k
    constructor
    · intro m hm
      exact absurd hm (by simp [dGet?, List.find?])
    · intro q _ hfil
      exact absurd rfl hfil
  have hfinal : FInv (finalDict D order) order
      (order.foldl (fun a op => processOp a op
        ((finalizeParams D order).filter
          (fun p => (p.operationIds.getD []).contains op))) []) := by
    have := feedback_fold (finalDict D order) (finalizeParams D order)
      hMmem hMget hMnames order [] [] hinv0
    simpa using this
  have haccnd : (dKeys (order.foldl (fun a op => processOp a op
      ((finalizeParams D order).filter
        (fun p => (p.operationIds.getD []).contains op))) [])).Nodup := by
    have hgen : ∀ (ops : List String) (acc : List (String × Param)),
        (dKeys acc).Nodup →
        (dKeys (ops.foldl (fun a op => processOp a op
          ((finalizeParams D order).filter
            (fun p => (p.operationIds.getD []).contains op))) acc)).Nodup := by
      intro ops
      induction ops with
      | nil => exact fun _ h => h
      | cons op ops ih =>
        intro acc h
        rw [List.foldl_cons]
        exact ih _ (processOp_nodup acc op _ h)
    exact hgen order [] (by simp [dKeys])
  have hacckey : ∀ kv ∈ (order.foldl (fun a op => processOp a op
      ((finalizeParams D order).filter
        (fun p => (p.operationIds.getD []).contains op))) []),
      Param.name kv.2 = kv.1 := by
    have hgen : ∀ (ops : List String) (acc : List (String × Param)),
        (∀ kv ∈ acc, Param.name kv.2 = kv.1) →
        ∀ kv ∈ (ops.foldl (fun a op => processOp a op
          ((finalizeParams D order).filter
            (fun p => (p.operationIds.getD []).contains op))) acc),
          Param.name kv.2 = kv.1 := by
      intro ops
      induction ops with
      | nil => exact fun _ h => h
      | cons op ops ih =>
        intro acc h
        rw [List.foldl_cons]
        exact ih _ (processOp_name_key acc op _ h)
    exact hgen order [] (by intro kv h; cases h)
  have hkeyeq : ∀ k,
      dGet? (finalDict (order.foldl (fun a op => processOp a op
        ((finalizeParams D order).filter
          (fun p => (p.operationIds.getD []).contains op))) []) order) k =
      dGet? (finalDict D order) k := by
    intro k
    by_cases hks : k = "state"
    · subst hks
      unfold finalDict
      rw [dGet?_dSet_self, dGet?_dSet_self]
    · unfold finalDict
      rw [dGet?_dSet_ne _ _ _ _ hks, dGet?_dSet_ne _ _ _ _ hks]
      unfold postDict
      rw [dGet?_map_post, dGet?_map_post]
      cases hacc : dGet? (order.foldl (fun a op => processOp a op
          ((finalizeParams D order).filter
            (fun p => (p.operationIds.getD []).contains op))) []) k with
      | some m2 =>
        obtain ⟨q, hq, hfilne, hrm⟩ := (hfinal k).1 m2 hacc
        have hq2 := hq
        unfold finalDict at hq2
        rw [dGet?_dSet_ne _ _ _ _ hks] at hq2
        unfold postDict at hq2
        rw [dGet?_map_post] at hq2
        cases hD0 : dGet? D k with
        | none =>
          rw [hD0] at hq2
          cases hq2
        | some m0 =>
          rw [hD0] at hq2
          have hqpost : q = postprocessParam m0 := (Option.some.inj hq2).symm
          obtain ⟨l, hl, hlne, hlnd, hlsort, hlsub⟩ := hOK k m0 hD0
          have hqop : q.operationIds = some l := by
            rw [hqpost, postprocessParam_operationIds, hl]
          have hreq : reqTruthy q.required = false := by
            rw [hqpost]
            exact postprocess_req_false m0
          have henum : ∀ e, q.enum = some e → e ≠ [] → sortedSet e = e := by
            intro e he hne
            rw [hqpost] at he
            exact postprocess_enum_stable m0 e he hne
          have hpost := post_reMerged_eq order l q m2 hord hreq henum hqop
            hlnd hlsort hlsub hrm
          show some (postprocessParam m2) = some (postprocessParam m0)
          rw [hpost, hqpost]
      | none =>
        cases hD0 : dGet? D k with
        | none => rfl
        | some m0 =>
          exfalso
          obtain ⟨l, hl, hlne, hlnd, hlsort, hlsub⟩ := hOK k m0 hD0
          have hq0 : dGet? (finalDict D order) k =
              some (postprocessParam m0) := by
            unfold finalDict
            rw [dGet?_dSet_ne _ _ _ _ hks]
            unfold postDict
            rw [dGet?_map_post, hD0]
            rfl
          obtain ⟨x, hxl⟩ := List.exists_mem_of_ne_nil l hlne
          have hfil : order.filter (fun op =>
              (((postprocessParam m0).operationIds).getD []).contains op) ≠
              [] := by
            apply List.ne_nil_of_mem (a := x)
            refine List.mem_filter.mpr ⟨hlsub x hxl, ?_⟩
            rw [postprocessParam_operationIds, hl]
            simpa using hxl
          obtain ⟨m, hm⟩ := (hfinal k).2 (postprocessParam m0) hq0 hfil
          rw [hacc] at hm
          cases hm
  have hFdnd : (dKeys (finalDict (order.foldl (fun a op => processOp a op
      ((finalizeParams D order).filter
        (fun p => (p.operationIds.getD []).contains op))) []) order)).Nodup := by
    unfold finalDict
    refine dKeys_nodup_dSet _ _ _ ?_
    rw [dKeys_postDict]
    exact haccnd
  have hFkey : ∀ kv ∈ finalDict (order.foldl (fun a op => processOp a op
      ((finalizeParams D order).filter
        (fun p => (p.operationIds.getD []).contains op))) []) order,
      Param.name kv.2 = kv.1 := by
    unfold finalDict
    exact dSet_name_key _ _ _ (post_map_facts _ hacckey).1 rfl
  have hperm := dict_perm_of_get_eq _ _ hFdnd hMdictnd hkeyeq
  have hvperm := hperm.map (fun kv : String × Param => kv.2)
  rw [finalizeParams_eq_dict (order.foldl (fun a op => processOp a op
    ((finalizeParams D order).filter
      (fun p => (p.operationIds.getD []).contains op))) []) order]
  conv_rhs => rw [finalizeParams_eq_dict]
  refine eq_of_perm_sortedNames _ _
    (((pySort_perm paramNameLt _).trans hvperm).trans
      (pySort_perm paramNameLt _).symm)
    (pySort_sortedB paramNameLt
      (fun a b c hab hbc => paramNameLt_trans a b c hab hbc)
      (fun a b h => paramNameLt_asymm a b h) _)
    (pySort_sortedB paramNameLt
      (fun a b c hab hbc => paramNameLt_trans a b c hab hbc)
      (fun a b h => paramNameLt_asymm a b h) _)
    ?_
  rw [((pySort_perm paramNameLt (dValues (finalDict (order.foldl
      (fun a op => processOp a op
        ((finalizeParams D order).filter
          (fun p => (p.operationIds.getD []).contains op))) []) order))).map
      Param.name).nodup_iff,
    dValues_names _ hFkey]
  exact hFdnd

/-- C9 (amended): the merge is idempotent on duplicate-free input —
whenever the operation identifiers are pairwise distinct and no single
operation's flattened view holds two descriptors with the same name,
feeding the finished parameter list back in as the per-operation views
(each operation seeing the descriptors whose `operationIds` mention
it, the identical bookkeeping) and re-running the merge, post-loop
rewriting, `state` assignment and sort reproduces the finished list
exactly.  The counterexample shows the duplicate-name proviso is
needed. -/
theorem c9_merge_idempotence_amended (views : List (String × List Param))
    (h1 : (views.map (·.1)).Nodup)
    (h2 : ∀ ov ∈ views, (ov.2.map Param.name).Nodup) :
    finalizeParams (mergeViews (feedbackViews
      (finalizeParams (mergeViews views) (views.map (·.1))) views))
      (views.map (·.1)) =
    finalizeParams (mergeViews views) (views.map (·.1)) := by
  refine Eq.trans ?_ (remerge_eq (mergeViews views) (views.map (·.1)) h1
    (mergeViews_nodup views) (mergeViews_name_key views)
    (mergeViews_opIdsOK views h1 h2))
  exact congrArg (fun z => finalizeParams z (views.map (·.1)))
    (mergeViews_feedback _ views)

def c9W1 : Param := Param.mk {
  name := "a"
  description := some "da"
  enum := some ["y", "x"]
  required := some (.rb true) }

def c9W2 : Param := Param.mk { name := "a", enum := some ["z"] }

def c9WViews : List (String × List Param) := [("get", [c9W1]), ("update", [c9W2])]

/-- Witness instantiating the amended C9 on a two-operation resource
with a shared enum-carrying required parameter. -/
theorem c9_merge_idempotence_amended_witness :
    finalizeParams (mergeViews (feedbackViews
      (finalizeParams (mergeViews c9WViews) (c9WViews.map (·.1)))
      c9WViews)) (c9WViews.map (·.1)) =
    finalizeParams (mergeViews c9WViews) (c9WViews.map (·.1)) :=
  c9_merge_idempotence_amended c9WViews (by decide) (by decide)
